import Mathlib

/-!
Shallow embedding of the Huffman codec in `src/Huffman/main.py` (and the
tree-construction core it shares with `src/huffman.py`).

Modelling conventions:
* Python characters are `Char`; texts are `List Char`.
* Bitstrings: the source represents codes both as strings of `'0'`/`'1'` and as
  `bitarray`s, converting with `bitarray(codes_dic[c])`; both are modelled as
  `List Bool` (`'0'` ↦ `false`, `'1'` ↦ `true`), making that conversion the
  identity.
* Python dicts are insertion-ordered association lists (`List (κ × ν)`); an
  assignment `d[k] = v` overwrites in place when `k` is present and appends
  otherwise (`dictInsert`).
* Falling back on `None` / `return None` / `return False` / an uncaught
  exception is modelled as `Option.none`.
* `heapq` is modelled exactly after CPython's `heapq.py` (`heappush`,
  `heappop`, `_siftdown`, `_siftup`), with comparisons through `Node.__lt__`,
  i.e. on the `data` field only.  The loops of `_siftdown`/`_siftup` and the
  tree-building loop are expressed with an explicit fuel argument that is
  always sufficient at the call sites (for `_siftdown`, fuel `pos` makes the
  exhausted branch coincide with the loop's own exit).
-/

/-- Huffman tree node (`class Node` in the source).  `huffmanCodes` only ever
builds leaves (both children `None`) and binary internal nodes (both children
present), which matches the spec's TreeNode arity invariant, so the embedding
uses an inductive with exactly these two shapes.  A leaf stores `data`
(frequency) and `char`; an internal node stores `data` and its two children
(its `char` is the empty string in the source and is never consulted). -/
inductive Node where
  | leaf (data : Nat) (char : Char)
  | node (data : Nat) (left right : Node)
deriving DecidableEq, Repr

instance : Inhabited Node := ⟨.leaf 0 ' '⟩

/-- The `data` (weight) field. -/
def Node.data : Node → Nat
  | .leaf d _ => d
  | .node d _ _ => d

/-- The `char` field; only ever read on leaves (single-symbol special cases in
`huffmanCodes` and `decode_file_tree`). -/
def Node.char : Node → Char
  | .leaf _ c => c
  | .node _ _ _ => ' '

/-- `Node.__lt__`: comparison used by `heapq`, on `data` only. -/
def Node.lt (a b : Node) : Bool := a.data < b.data

/-- CPython `heapq._siftdown(heap, startpos, pos)`, with `newitem` (read from
`heap[pos]` before the loop in the source) passed explicitly and with fuel.
Call sites pass `fuel = pos`, which is enough for the loop (`pos` strictly
decreases), and at `fuel = 0` we have `pos = 0 ≤ startpos` so the fuel branch
agrees with the loop exit. -/
def siftdown : Nat → List Node → Nat → Nat → Node → List Node
  | 0, heap, _, pos, newitem => heap.set pos newitem
  | fuel + 1, heap, startpos, pos, newitem =>
    if startpos < pos then
      let parentpos := (pos - 1) / 2
      let parent := heap.getD parentpos default
      if newitem.data < parent.data then
        siftdown fuel (heap.set pos parent) startpos parentpos newitem
      else
        heap.set pos newitem
    else
      heap.set pos newitem

/-- CPython `heapq._siftup(heap, pos)` (the "bounce" variant: move the hole
down along the smaller-child chain — ties pick the right child — then sift the
new item back up).  `startpos`/`newitem` are the locals of the source; fuel is
always called with `heap.length`, which bounds the number of iterations. -/
def siftup : Nat → List Node → Nat → Nat → Node → List Node
  | 0, heap, _, pos, newitem => heap.set pos newitem
  | fuel + 1, heap, startpos, pos, newitem =>
    let endpos := heap.length
    let childpos := 2 * pos + 1
    if childpos < endpos then
      let rightpos := childpos + 1
      let cp :=
        if rightpos < endpos ∧
            ¬ ((heap.getD childpos default).data < (heap.getD rightpos default).data) then
          rightpos
        else childpos
      siftup fuel (heap.set pos (heap.getD cp default)) startpos cp newitem
    else
      siftdown pos (heap.set pos newitem) startpos pos newitem

/-- CPython `heapq.heappush`. -/
def heappush (heap : List Node) (item : Node) : List Node :=
  siftdown heap.length (heap ++ [item]) 0 heap.length item

/-- CPython `heapq.heappop`; popping an empty heap raises `IndexError`,
modelled as `none`. -/
def heappop (heap : List Node) : Option (Node × List Node) :=
  match heap.getLast? with
  | none => none
  | some lastelt =>
    let rest := heap.dropLast
    if rest.isEmpty then some (lastelt, [])
    else some (rest.getD 0 default, siftup rest.length (rest.set 0 lastelt) 0 0 lastelt)

/-- Python dict assignment `d[k] = v` on an insertion-ordered association
list: overwrite in place if the key is present, append otherwise. -/
def dictInsert {κ ν : Type} [DecidableEq κ] (d : List (κ × ν)) (k : κ) (v : ν) :
    List (κ × ν) :=
  if d.any (fun p => p.1 = k) then
    d.map (fun p => if p.1 = k then (k, v) else p)
  else
    d ++ [(k, v)]

/-- Python dict lookup `d[k]` / `k in d`, as an `Option`. -/
def dictFind? {κ ν : Type} [DecidableEq κ] (d : List (κ × ν)) (k : κ) : Option ν :=
  (d.find? (fun p => p.1 = k)).map (fun p => p.2)

/-- `preOrder(root, ans, curr)`: record the path to each leaf in the dict
`ans` (left edge appends `'0'` = `false`, right edge `'1'` = `true`).  The
`root is None` guard of the source cannot arise for the trees of this
embedding. -/
def preOrder (root : Node) (ans : List (Char × List Bool)) (curr : List Bool) :
    List (Char × List Bool) :=
  match root with
  | .leaf _ c => dictInsert ans c curr
  | .node _ l r => preOrder r (preOrder l ans (curr ++ [false])) (curr ++ [true])

/-- The `while len(pq) >= 2` merge loop of `huffmanCodes`.  Each iteration
pops two nodes and pushes their merge, shrinking the heap by one, so fuel
`pq.length` is always sufficient; the `none` branches (popping an empty heap)
are unreachable while the length is at least 2. -/
def buildLoop : Nat → List Node → List Node
  | 0, pq => pq
  | fuel + 1, pq =>
    if 2 ≤ pq.length then
      match heappop pq with
      | none => pq
      | some (l, pq1) =>
        match heappop pq1 with
        | none => pq1
        | some (r, pq2) =>
          buildLoop fuel (heappush pq2 (.node (l.data + r.data) l r))
    else pq

/-- `huffmanCodes(s, freq)`: push a leaf per symbol, special-case a single
symbol (code `"0"`), otherwise run the merge loop and read the codes off the
final tree.  Calling it with no symbols pops an empty heap (`IndexError`),
modelled as `none`. -/
def huffmanCodes (s : List Char) (freq : List Nat) :
    Option (List (Char × List Bool) × Node) :=
  let pq := (s.zip freq).foldl (fun pq p => heappush pq (.leaf p.2 p.1)) []
  if pq.length = 1 then
    match heappop pq with
    | some (root, _) => some ([(root.char, [false])], root)
    | none => none
  else
    match heappop (buildLoop pq.length pq) with
    | some (root, _) => some (preOrder root [] [], root)
    | none => none

/-- `collections.Counter(text)`: occurrence counts keyed in first-seen order
(`generate_frequency_stats` reads its keys and values in that order). -/
def charFreqs (text : List Char) : List (Char × Nat) :=
  text.foldl
    (fun acc c =>
      if acc.any (fun p => p.1 = c) then
        acc.map (fun p => if p.1 = c then (p.1, p.2 + 1) else p)
      else
        acc ++ [(c, 1)])
    []

/-- The persisted `.huff` content: the pickled header dict written by
`encode_file` (`codes_dic`, `padding`, `tree`) together with the packed bit
payload.  `codes_dic` and `padding` are read back with defaults `{}` / `0`,
so they are structural fields; `tree` is read with default `None` and checked
by `decode_file_tree`, so it is an `Option`. -/
structure Container where
  codes_dic : List (Char × List Bool)
  padding : Nat
  tree : Option Node
  payload : List Bool
deriving DecidableEq, Repr

/-- The `for char in text: encoded_bits.extend(codes[char])` loop of
`encode_file`: a missing key raises `KeyError`, modelled as `none` (it cannot
occur for the dict `encode_file` builds, see the round-trip proofs). -/
def encodeBits (codes : List (Char × List Bool)) : List Char → Option (List Bool)
  | [] => some []
  | c :: rest =>
    match dictFind? codes c with
    | none => none
    | some bits =>
      match encodeBits codes rest with
      | none => none
      | some tail => some (bits ++ tail)

/-- `encode_file` on an in-memory text (file I/O stripped): build frequency
stats, codes and tree, concatenate the per-character codes, pad to a byte
boundary with zero bits, and assemble the container.  The empty-text guard
returns `None`. -/
def encode_file (text : List Char) : Option Container :=
  if text.isEmpty then none
  else
    let cf := charFreqs text
    let characters := cf.map (fun p => p.1)
    let frequencies := cf.map (fun p => p.2)
    match huffmanCodes characters frequencies with
    | none => none
    | some (codes_dic, root) =>
      match encodeBits codes_dic text with
      | none => none
      | some encoded =>
        let padding := (8 - encoded.length % 8) % 8
        some { codes_dic := codes_dic
               padding := padding
               tree := some root
               payload := encoded ++ List.replicate padding false }

/-- Python `bits[:len(bits) - padding]` (negative stops count from the end,
which matters only when `padding > len(bits)`). -/
def stripPadding (bits : List Bool) (padding : Nat) : List Bool :=
  if padding ≠ 0 then
    let stop : Int := (bits.length : Int) - padding
    if stop < 0 then bits.take (bits.length - (-stop).toNat)
    else bits.take stop.toNat
  else bits

/-- The bit loop of `decode_file_inverse`: grow the accumulator `cur` bit by
bit, emit a symbol and reset whenever `cur` is a key of the inverse dict.
Returns both the emitted symbols and the final accumulator (the source
computes `cur` and then drops it without checking it). -/
def decodeInverseLoop (inv : List (List Bool × Char)) :
    List Bool → List Char → List Bool → List Char × List Bool
  | [], out, cur => (out, cur)
  | b :: rest, out, cur =>
    let cur' := cur ++ [b]
    match dictFind? inv cur' with
    | some ch => decodeInverseLoop inv rest (out ++ [ch]) []
    | none => decodeInverseLoop inv rest out cur'

/-- `inv = {v: k for k, v in codes_dic.items()}`. -/
def invertDict (codes_dic : List (Char × List Bool)) : List (List Bool × Char) :=
  codes_dic.foldl (fun acc p => dictInsert acc p.2 p.1) []

/-- `decode_file_inverse` on a parsed container: strip the padding, build the
inverse dict, scan the bits.  The source always returns `True` and writes the
joined symbols, silently discarding any leftover accumulator, so the result
is a plain symbol list. -/
def decode_file_inverse (c : Container) : List Char :=
  let bits := stripPadding c.payload c.padding
  let inv := invertDict c.codes_dic
  (decodeInverseLoop inv bits [] []).1

/-- The bit loop of `decode_file_tree`: walk the tree, emitting a symbol and
resetting to the root at each leaf.  The current node is internal throughout
(the loop is entered with an internal root and resets to it); if a bit were
ever consumed at a leaf the source would dereference `None.left`
(`AttributeError`), modelled as `none`. -/
def decodeTreeLoop (root : Node) : Node → List Bool → List Char → Option (List Char)
  | _, [], out => some out
  | cur, b :: rest, out =>
    match cur with
    | .leaf _ _ => none
    | .node _ l r =>
      match (if b then r else l) with
      | .leaf _ ch => decodeTreeLoop root root rest (out ++ [ch])
      | next => decodeTreeLoop root next rest out

/-- `decode_file_tree` on a parsed container: missing tree returns `False`
(modelled `none`); a single-leaf tree emits its symbol once per remaining bit;
otherwise walk the tree bit by bit. -/
def decode_file_tree (c : Container) : Option (List Char) :=
  match c.tree with
  | none => none
  | some root =>
    let bits := stripPadding c.payload c.padding
    match root with
    | .leaf _ ch => some (List.replicate bits.length ch)
    | .node d l r => decodeTreeLoop (.node d l r) (.node d l r) bits []

/-! ### Derived notions used in the statements and proofs

The following definitions do not correspond to further source code; they are
the vocabulary in which the properties of the functions above are stated
(leaf enumerations, root-to-leaf paths, subtree addressing, weighted cost). -/

/-- The leaves of a tree, left to right. -/
def Node.leavesList : Node → List Node
  | .leaf d c => [.leaf d c]
  | .node _ l r => l.leavesList ++ r.leavesList

/-- All leaves of a forest (a heap's contents), left to right. -/
def forestLeaves (pq : List Node) : List Node := (pq.map Node.leavesList).flatten

/-- Sum of the leaf frequencies of a tree (computed from the leaves, not from
the cached `data` of internal nodes). -/
def weightSum : Node → Nat
  | .leaf d _ => d
  | .node _ l r => weightSum l + weightSum r

/-- Weighted external path length: each merge contributes the weights of the
two merged subtrees, so `treeCost t = Σ (leaf weight · leaf depth)`. -/
def treeCost : Node → Nat
  | .leaf _ _ => 0
  | .node _ l r => treeCost l + treeCost r + (weightSum l + weightSum r)

/-- `(symbol, path)` for every leaf, `false` = left edge, `true` = right
edge, accumulated on `curr`; this is what `preOrder` records when no
overwrite happens. -/
def pathsOf (t : Node) (curr : List Bool) : List (Char × List Bool) :=
  match t with
  | .leaf _ c => [(c, curr)]
  | .node _ l r => pathsOf l (curr ++ [false]) ++ pathsOf r (curr ++ [true])

/-- `(leaf weight, path)` for every leaf. -/
def wpathsOf (t : Node) (curr : List Bool) : List (Nat × List Bool) :=
  match t with
  | .leaf d _ => [(d, curr)]
  | .node _ l r => wpathsOf l (curr ++ [false]) ++ wpathsOf r (curr ++ [true])

/-- The subtree reached by following a path from the root (`false` = left). -/
def subtreeAt : Node → List Bool → Option Node
  | t, [] => some t
  | .leaf _ _, _ :: _ => none
  | .node _ l r, b :: p => subtreeAt (if b then r else l) p

/-- Replace the subtree at a path (used only in proofs, for leaf exchanges). -/
def replaceAt : Node → List Bool → Node → Node
  | _, [], s => s
  | .leaf d c, _ :: _, _ => .leaf d c
  | .node d l r, b :: p, s =>
    if b then .node d l (replaceAt r p s) else .node d (replaceAt l p s) r

/-- The entries of a `(weight, code)` list whose code starts with bit `b`,
with that first bit stripped (used only in proofs, to turn a prefix-free code
into a tree). -/
def branchCodes (b : Bool) (L : List (Nat × List Bool)) : List (Nat × List Bool) :=
  L.filterMap (fun z =>
    match z.2 with
    | b' :: t => if b' = b then some (z.1, t) else none
    | [] => none)

/-- Extract the minimum of a list of weights (first occurrence) together with
the remaining list. -/
def natExtractMin : List Nat → Option (Nat × List Nat)
  | [] => none
  | x :: rest =>
    match natExtractMin rest with
    | none => some (x, [])
    | some (m, rest') => if x ≤ m then some (x, rest) else some (m, x :: rest')

/-- Total cost of greedily merging the two smallest weights until one weight
remains: the reference value the Huffman construction attains and no tree can
beat.  The fuel is one less than the number of weights at the call sites. -/
def mergeTotal : Nat → List Nat → Nat
  | 0, _ => 0
  | fuel + 1, ws =>
    match natExtractMin ws with
    | none => 0
    | some (x, ws1) =>
      match natExtractMin ws1 with
      | none => 0
      | some (y, ws2) => (x + y) + mergeTotal fuel ((x + y) :: ws2)

/-- `Σ freq(symbol) · |bitstring|` of a code assignment, with frequencies
looked up in `wmap`. -/
def tableCost (wmap : List (Char × Nat)) (assign : List (Char × List Bool)) : Nat :=
  (assign.map (fun p => ((dictFind? wmap p.1).getD 0) * p.2.length)).sum

/-- A code assignment for an alphabet: one entry per symbol, and no entry's
bitstring is a prefix of a different entry's bitstring. -/
def PrefixFreeOn (s : List Char) (assign : List (Char × List Bool)) : Prop :=
  List.Perm (assign.map (fun p => p.1)) s ∧
  assign.Pairwise (fun p q => ¬ p.2 <+: q.2 ∧ ¬ q.2 <+: p.2)

/-- Modelled from the spec (§4.2, tie-break policy): candidates are ordered
by `(weight, key)` where a leaf's key is its symbol's first-seen order and a
merged node's key is the minimum of its children's keys.  This is the
reference construction the claim C4 compares `huffmanCodes` against; it is
not part of the source. -/
def specExtractMin : List (Node × Nat) → Option ((Node × Nat) × List (Node × Nat))
  | [] => none
  | x :: rest =>
    match specExtractMin rest with
    | none => some (x, [])
    | some (m, rest') =>
      if x.1.data < m.1.data ∨ (x.1.data = m.1.data ∧ x.2 < m.2) then
        some (x, rest)
      else
        some (m, x :: rest')

/-- Modelled from the spec (§4.2): greedy merge loop under the `(weight,
min-first-seen-key)` order. -/
def specBuildLoop : Nat → List (Node × Nat) → List (Node × Nat)
  | 0, forest => forest
  | fuel + 1, forest =>
    if 2 ≤ forest.length then
      match specExtractMin forest with
      | none => forest
      | some (l, forest1) =>
        match specExtractMin forest1 with
        | none => forest1
        | some (r, forest2) =>
          specBuildLoop fuel
            ((Node.node (l.1.data + r.1.data) l.1 r.1, min l.2 r.2) :: forest2)
    else forest

/-- Modelled from the spec (§4.2): the tree and code table the mandated
first-seen-order tie-break policy produces for a frequency table given in
first-seen order. -/
def huffmanCodesSpec (s : List Char) (freq : List Nat) :
    Option (List (Char × List Bool) × Node) :=
  let forest := (s.zip freq).enum.map (fun p => (Node.leaf p.2.2 p.2.1, p.1))
  if forest.length = 1 then
    match forest with
    | (root, _) :: _ => some ([(root.char, [false])], root)
    | [] => none
  else
    match specBuildLoop forest.length forest with
    | [(root, _)] => some (pathsOf root [], root)
    | _ => none

/-- The `data` value stored at an index of a heap array (default-padded, as
`List.getD` in the heap model). -/
def heapVal (l : List Node) (i : Nat) : Nat := (l.getD i default).data

/-- The binary-heap ordering invariant maintained by the `heapq` model: every
parent's `data` is at most each child's. -/
def IsHeap (l : List Node) : Prop :=
  ∀ i j, (j = 2 * i + 1 ∨ j = 2 * i + 2) → j < l.length → heapVal l i ≤ heapVal l j

/-- The leaf weights of a tree, left to right. -/
def leafDatas (t : Node) : List Nat := t.leavesList.map Node.data

/-- Height of a tree: the length of its longest root-to-leaf path. -/
def maxDepth : Node → Nat
  | .leaf _ _ => 0
  | .node _ l r => max (maxDepth l) (maxDepth r) + 1

/-! ### List and permutation helpers -/

theorem set_getD_self (l : List Node) (n : Nat) (h : n < l.length) :
    l.set n (l.getD n default) = l := by
  apply List.ext_getElem (by simp)
  intro i h1 h2
  rw [List.getElem_set]
  split
  next heq => subst heq; rw [List.getD_eq_getElem l default h]
  next => rfl

theorem cons_set_perm {α : Type} (xs : List α) (k : Nat) (a b : α)
    (hk : k < xs.length) : (b :: xs.set k a).Perm (a :: xs.set k b) := by
  rw [List.set_eq_take_cons_drop a hk, List.set_eq_take_cons_drop b hk]
  exact ((List.Perm.cons b List.perm_middle).trans
    (List.Perm.swap a b _)).trans (List.Perm.cons a List.perm_middle.symm)

theorem perm_set_set {α : Type} (l : List α) (i j : Nat) (a b : α)
    (hij : i ≠ j) (hi : i < l.length) (hj : j < l.length) :
    ((l.set i b).set j a).Perm ((l.set i a).set j b) := by
  induction l generalizing i j with
  | nil => simp at hi
  | cons x xs ih =>
    match i, j with
    | 0, 0 => exact absurd rfl hij
    | 0, k + 1 =>
      simp only [List.set_cons_zero, List.set_cons_succ]
      exact cons_set_perm xs k a b (by simpa using hj)
    | k + 1, 0 =>
      simp only [List.set_cons_zero, List.set_cons_succ]
      exact cons_set_perm xs k b a (by simpa using hi)
    | k + 1, m + 1 =>
      simp only [List.set_cons_succ]
      exact List.Perm.cons x
        (ih k m (fun h => hij (by simp [h])) (by simpa using hi) (by simpa using hj))

theorem getD_set_ne (l : List Node) (i j : Nat) (a : Node) (h : i ≠ j) :
    (l.set i a).getD j default = l.getD j default := by
  by_cases hj : j < l.length
  · rw [List.getD_eq_getElem _ _ (by simpa using hj), List.getD_eq_getElem _ _ hj,
      List.getElem_set_ne h]
  · rw [List.getD_eq_default _ _ (by simpa using Nat.le_of_not_lt hj),
      List.getD_eq_default _ _ (Nat.le_of_not_lt hj)]

/-! ### Heap operations permute their contents -/

theorem siftdown_perm (fuel : Nat) :
    ∀ (heap : List Node) (startpos pos : Nat) (item : Node), pos < heap.length →
      (siftdown fuel heap startpos pos item).Perm (heap.set pos item) := by
  induction fuel with
  | zero => intro heap s pos item _; exact List.Perm.refl _
  | succ fuel ih =>
    intro heap s pos item hpos
    simp only [siftdown]
    split
    next hlt =>
      split
      next hcmp =>
        have hpos1 : 1 ≤ pos := Nat.one_le_iff_ne_zero.mpr (by omega)
        have hpp : (pos - 1) / 2 < pos :=
          Nat.lt_of_le_of_lt (Nat.div_le_self _ _) (by omega)
        have hrec := ih (heap.set pos (heap.getD ((pos - 1) / 2) default)) s
          ((pos - 1) / 2) item (by simpa using Nat.lt_trans hpp hpos)
        refine hrec.trans ?_
        have hswap := perm_set_set heap pos ((pos - 1) / 2) item
          (heap.getD ((pos - 1) / 2) default) (Nat.ne_of_gt hpp) hpos
          (Nat.lt_trans hpp hpos)
        refine hswap.trans ?_
        have hsame : (heap.set pos item).getD ((pos - 1) / 2) default
            = heap.getD ((pos - 1) / 2) default :=
          getD_set_ne heap pos ((pos - 1) / 2) item (Nat.ne_of_gt hpp)
        rw [← hsame, set_getD_self _ _ (by simpa using Nat.lt_trans hpp hpos)]
      next => exact List.Perm.refl _
    next => exact List.Perm.refl _

theorem siftup_perm (fuel : Nat) :
    ∀ (heap : List Node) (startpos pos : Nat) (item : Node), pos < heap.length →
      (siftup fuel heap startpos pos item).Perm (heap.set pos item) := by
  induction fuel with
  | zero => intro heap s pos item _; exact List.Perm.refl _
  | succ fuel ih =>
    intro heap s pos item hpos
    simp only [siftup]
    split
    next hchild =>
      set cp := if 2 * pos + 1 + 1 < heap.length ∧
          ¬ ((heap.getD (2 * pos + 1) default).data
              < (heap.getD (2 * pos + 1 + 1) default).data) then
          2 * pos + 1 + 1
        else 2 * pos + 1 with hcp
      have hcplt : cp < heap.length := by
        rw [hcp]; split
        next hcond => exact hcond.1
        next => exact hchild
      have hne : pos ≠ cp := by rw [hcp]; split <;> omega
      have hrec := ih (heap.set pos (heap.getD cp default)) s cp item
        (by simpa using hcplt)
      refine hrec.trans ?_
      have hswap := perm_set_set heap pos cp item (heap.getD cp default) hne hpos hcplt
      refine hswap.trans ?_
      have hsame : (heap.set pos item).getD cp default = heap.getD cp default :=
        getD_set_ne heap pos cp item hne
      rw [← hsame, set_getD_self _ _ (by simpa using hcplt)]
    next =>
      refine (siftdown_perm pos _ s pos item (by simpa using hpos)).trans ?_
      rw [List.set_set]

theorem heappush_perm (heap : List Node) (item : Node) :
    (heappush heap item).Perm (item :: heap) := by
  unfold heappush
  have hlen : heap.length < (heap ++ [item]).length := by simp
  refine (siftdown_perm heap.length (heap ++ [item]) 0 heap.length item hlen).trans ?_
  have hset : (heap ++ [item]).set heap.length item = heap ++ [item] := by
    apply List.ext_getElem (by simp)
    intro i h1 h2
    by_cases hi : heap.length = i
    · subst hi; simp [List.getElem_set]
    · simp [List.getElem_set, hi]
  rw [hset]
  exact List.perm_append_singleton item heap

theorem heappush_length (heap : List Node) (item : Node) :
    (heappush heap item).length = heap.length + 1 := by
  simpa using (heappush_perm heap item).length_eq

theorem heappop_eq_none_iff (heap : List Node) : heappop heap = none ↔ heap = [] := by
  cases heap with
  | nil => simp [heappop]
  | cons x xs =>
    constructor
    · intro h
      exfalso
      have : (x :: xs).getLast? = some ((x :: xs).getLast (by simp)) :=
        List.getLast?_eq_getLast _ _
      rw [heappop, this] at h
      dsimp at h
      split at h <;> simp_all
    · intro h; simp at h

theorem heappop_perm (heap : List Node) (r : Node) (h' : List Node)
    (hp : heappop heap = some (r, h')) : heap.Perm (r :: h') := by
  unfold heappop at hp
  cases hl : heap.getLast? with
  | none => rw [hl] at hp; simp at hp
  | some lastelt =>
    rw [hl] at hp
    dsimp only at hp
    have hne : heap ≠ [] := by rintro rfl; simp at hl
    have hlast : heap.getLast hne = lastelt := by
      rw [List.getLast?_eq_getLast _ hne] at hl
      exact Option.some_inj.mp hl
    have heq : heap.dropLast ++ [lastelt] = heap := by
      rw [← hlast]; exact List.dropLast_concat_getLast hne
    cases hrest : heap.dropLast with
    | nil =>
      rw [hrest] at hp heq
      simp only [List.nil_append] at heq
      simp only [List.isEmpty_nil, if_true] at hp
      have hpair : (lastelt, ([] : List Node)) = (r, h') := Option.some_inj.mp hp
      rw [Prod.mk.injEq] at hpair
      obtain ⟨hr, hh'⟩ := hpair
      rw [← heq, ← hr, ← hh']
    | cons x xs =>
      rw [hrest] at hp heq
      rw [if_neg (by simp)] at hp
      have hpair := Option.some_inj.mp hp
      rw [Prod.mk.injEq] at hpair
      obtain ⟨hr, hh'⟩ := hpair
      simp only [List.getD_cons_zero] at hr
      have hperm : h'.Perm (lastelt :: xs) := by
        rw [← hh']
        refine (siftup_perm (x :: xs).length ((x :: xs).set 0 lastelt)
          0 0 lastelt (by simp)).trans ?_
        rw [List.set_set]
        exact List.Perm.refl _
      rw [← heq, ← hr]
      refine (List.perm_append_singleton _ _).trans ?_
      refine (List.Perm.swap _ _ _).trans ?_
      exact List.Perm.cons x hperm.symm

theorem heappop_length (heap : List Node) (r : Node) (h' : List Node)
    (hp : heappop heap = some (r, h')) : heap.length = h'.length + 1 := by
  simpa using (heappop_perm heap r h' hp).length_eq

/-! ### The merge loop: final tree and leaf preservation -/

theorem forestLeaves_perm {pq pq' : List Node} (h : pq.Perm pq') :
    (forestLeaves pq).Perm (forestLeaves pq') := (h.map _).flatten

theorem forestLeaves_cons (x : Node) (pq : List Node) :
    forestLeaves (x :: pq) = x.leavesList ++ forestLeaves pq := by
  simp [forestLeaves]

theorem buildLoop_one (fuel : Nat) (x : Node) : buildLoop fuel [x] = [x] := by
  cases fuel <;> simp [buildLoop]

theorem buildLoop_spec (fuel : Nat) :
    ∀ pq : List Node, 1 ≤ pq.length → pq.length ≤ fuel + 1 →
      (buildLoop fuel pq).length = 1 ∧
        (forestLeaves (buildLoop fuel pq)).Perm (forestLeaves pq) := by
  induction fuel with
  | zero =>
    intro pq h1 h2
    simp only [buildLoop]
    exact ⟨Nat.le_antisymm h2 h1, List.Perm.refl _⟩
  | succ fuel ih =>
    intro pq h1 h2
    by_cases hlen : 2 ≤ pq.length
    · cases hp1 : heappop pq with
      | none =>
        rw [heappop_eq_none_iff] at hp1
        rw [hp1] at hlen; simp at hlen
      | some lr =>
        obtain ⟨l, pq1⟩ := lr
        have hlen1 : pq.length = pq1.length + 1 := heappop_length pq l pq1 hp1
        cases hp2 : heappop pq1 with
        | none =>
          rw [heappop_eq_none_iff] at hp2
          rw [hp2] at hlen1; simp at hlen1; omega
        | some rr =>
          obtain ⟨r, pq2⟩ := rr
          have hlen2 : pq1.length = pq2.length + 1 := heappop_length pq1 r pq2 hp2
          have hstep : buildLoop (fuel + 1) pq =
              buildLoop fuel (heappush pq2 (.node (l.data + r.data) l r)) := by
            simp only [buildLoop, if_pos hlen, hp1, hp2]
          have hlen' : (heappush pq2 (.node (l.data + r.data) l r)).length
              = pq2.length + 1 := heappush_length _ _
          have ihres := ih (heappush pq2 (.node (l.data + r.data) l r))
            (by omega) (by omega)
          refine ⟨by rw [hstep]; exact ihres.1, ?_⟩
          rw [hstep]
          refine ihres.2.trans ?_
          have hp' : (forestLeaves (heappush pq2 (.node (l.data + r.data) l r))).Perm
              (forestLeaves ((.node (l.data + r.data) l r) :: pq2)) :=
            forestLeaves_perm (heappush_perm _ _)
          refine hp'.trans ?_
          have hq : (forestLeaves pq).Perm (forestLeaves (l :: pq1)) :=
            forestLeaves_perm (heappop_perm pq l pq1 hp1)
          have hq1 : (forestLeaves pq1).Perm (forestLeaves (r :: pq2)) :=
            forestLeaves_perm (heappop_perm pq1 r pq2 hp2)
          refine List.Perm.symm ?_
          refine (hq.trans ?_)
          have hq1' : (forestLeaves pq1).Perm (r.leavesList ++ forestLeaves pq2) := by
            rw [← forestLeaves_cons]; exact hq1
          rw [forestLeaves_cons, forestLeaves_cons]
          have hnl : Node.leavesList (.node (l.data + r.data) l r)
              = l.leavesList ++ r.leavesList := rfl
          rw [hnl, List.append_assoc]
          exact List.Perm.append_left _ hq1'
    · have hone : pq.length = 1 := by omega
      simp only [buildLoop, if_neg hlen]
      exact ⟨hone, List.Perm.refl _⟩

theorem heappush_nil (item : Node) : heappush [] item = [item] := rfl

theorem buildLoop_internal (fuel : Nat) :
    ∀ pq : List Node, 2 ≤ pq.length → pq.length ≤ fuel + 1 →
      ∃ d l r, buildLoop fuel pq = [Node.node d l r] := by
  induction fuel with
  | zero => intro pq h2 h1; omega
  | succ fuel ih =>
    intro pq h2 hle
    cases hp1 : heappop pq with
    | none => rw [heappop_eq_none_iff] at hp1; rw [hp1] at h2; simp at h2
    | some lr =>
      obtain ⟨l, pq1⟩ := lr
      have hlen1 : pq.length = pq1.length + 1 := heappop_length pq l pq1 hp1
      cases hp2 : heappop pq1 with
      | none => rw [heappop_eq_none_iff] at hp2; rw [hp2] at hlen1; simp at hlen1; omega
      | some rr =>
        obtain ⟨r, pq2⟩ := rr
        have hlen2 : pq1.length = pq2.length + 1 := heappop_length pq1 r pq2 hp2
        have hstep : buildLoop (fuel + 1) pq =
            buildLoop fuel (heappush pq2 (.node (l.data + r.data) l r)) := by
          simp only [buildLoop, if_pos h2, hp1, hp2]
        rw [hstep]
        by_cases h2' : 2 ≤ (heappush pq2 (.node (l.data + r.data) l r)).length
        · exact ih _ h2' (by rw [heappush_length]; omega)
        · have hpq2 : pq2 = [] := by
            rw [heappush_length] at h2'
            exact List.length_eq_zero.mp (by omega)
          subst hpq2
          rw [heappush_nil, buildLoop_one]
          exact ⟨l.data + r.data, l, r, rfl⟩

/-! ### Seeding the heap with one leaf per symbol -/

theorem fold_push_perm (ps : List (Char × Nat)) :
    ∀ init : List Node,
      (ps.foldl (fun pq p => heappush pq (.leaf p.2 p.1)) init).Perm
        (init ++ ps.map (fun p => Node.leaf p.2 p.1)) := by
  induction ps with
  | nil => intro init; simp
  | cons p ps ih =>
    intro init
    simp only [List.foldl_cons, List.map_cons]
    refine (ih (heappush init (.leaf p.2 p.1))).trans ?_
    have h1 : (heappush init (.leaf p.2 p.1) ++ ps.map (fun p => Node.leaf p.2 p.1)).Perm
        ((Node.leaf p.2 p.1 :: init) ++ ps.map (fun p => Node.leaf p.2 p.1)) :=
      (heappush_perm init _).append_right _
    refine h1.trans ?_
    simp only [List.cons_append]
    exact List.perm_middle.symm

theorem forestLeaves_of_leaves (ps : List (Char × Nat)) :
    forestLeaves (ps.map (fun p => Node.leaf p.2 p.1)) = ps.map (fun p => Node.leaf p.2 p.1) := by
  induction ps with
  | nil => rfl
  | cons p ps ih => simp [forestLeaves, Node.leavesList] at ih ⊢; exact ih

/-- The general (at least two distinct symbols) branch of `huffmanCodes`:
the result is the code table read off a final internal tree whose leaf
multiset is exactly one leaf per `(symbol, frequency)` pair. -/
theorem huffmanCodes_general (s : List Char) (freq : List Nat)
    (hlen : s.length ≤ freq.length) (h2 : 2 ≤ s.length) :
    ∃ (table : List (Char × List Bool)) (root : Node),
      huffmanCodes s freq = some (table, root) ∧
      table = preOrder root [] [] ∧
      (∃ d l r, root = Node.node d l r) ∧
      root.leavesList.Perm ((s.zip freq).map (fun p => Node.leaf p.2 p.1)) := by
  set ps := s.zip freq with hps
  have hpslen : ps.length = s.length := by
    rw [hps, List.length_zip]; omega
  set pq := ps.foldl (fun pq p => heappush pq (.leaf p.2 p.1)) [] with hpq
  have hpqperm : pq.Perm (ps.map (fun p => Node.leaf p.2 p.1)) := by
    simpa using fold_push_perm ps []
  have hpqlen : pq.length = ps.length := by
    simpa using hpqperm.length_eq
  have hpqlen2 : 2 ≤ pq.length := by omega
  have hnot1 : ¬ pq.length = 1 := by omega
  obtain ⟨hloop1, hloopperm⟩ := buildLoop_spec pq.length pq (by omega) (by omega)
  obtain ⟨d, l, r, hroot⟩ := buildLoop_internal pq.length pq hpqlen2 (by omega)
  set root := Node.node d l r with hrootdef
  have hpop : heappop (buildLoop pq.length pq) = some (root, []) := by
    rw [hroot]
    simp [heappop]
  refine ⟨preOrder root [] [], root, ?_, rfl, ⟨d, l, r, rfl⟩, ?_⟩
  · rw [huffmanCodes]
    simp only [← hps, ← hpq, if_neg hnot1, hpop]
  · have h1 : forestLeaves (buildLoop pq.length pq) = root.leavesList := by
      rw [hroot]; simp [forestLeaves]
    have := hloopperm
    rw [h1] at this
    refine this.trans ?_
    refine (forestLeaves_perm hpqperm).trans ?_
    rw [forestLeaves_of_leaves]

/-! ### Association list lemmas -/

theorem dictInsert_of_fresh {κ ν : Type} [DecidableEq κ] (d : List (κ × ν)) (k : κ) (v : ν)
    (h : ∀ p ∈ d, p.1 ≠ k) : dictInsert d k v = d ++ [(k, v)] := by
  rw [dictInsert, if_neg]
  simp only [List.any_eq_true, decide_eq_true_eq, not_exists, not_and]
  exact fun p hp => h p hp

theorem dictFind?_eq_some_of_mem {κ ν : Type} [DecidableEq κ]
    (d : List (κ × ν)) (k : κ) (v : ν) (hmem : (k, v) ∈ d)
    (hnd : (d.map (fun p => p.1)).Nodup) : dictFind? d k = some v := by
  induction d with
  | nil => simp at hmem
  | cons p d ih =>
    rw [List.map_cons, List.nodup_cons] at hnd
    by_cases hk : p.1 = k
    · have hp : p = (k, v) := by
        rcases List.mem_cons.mp hmem with h | h
        · exact h.symm
        · exfalso
          exact hnd.1 (hk ▸ (List.mem_map.mpr ⟨(k, v), h, by rw [← hk]⟩))
      rw [dictFind?, List.find?_cons_of_pos _ (by simpa using hk), hp]
      rfl
    · have hmem' : (k, v) ∈ d := by
        rcases List.mem_cons.mp hmem with h | h
        · exact absurd (by rw [← h]) hk
        · exact h
      rw [dictFind?, List.find?_cons_of_neg _ (by simpa using hk)]
      exact ih hmem' hnd.2

theorem dictFind?_mem {κ ν : Type} [DecidableEq κ] (d : List (κ × ν)) (k : κ) (v : ν)
    (h : dictFind? d k = some v) : (k, v) ∈ d := by
  induction d with
  | nil => simp [dictFind?] at h
  | cons p d ih =>
    by_cases hk : p.1 = k
    · rw [dictFind?, List.find?_cons_of_pos _ (by simpa using hk)] at h
      simp only [Option.map_some', Option.some_inj] at h
      have hp : p = (k, v) := Prod.ext hk h
      rw [← hp]
      exact List.mem_cons_self _ _
    · rw [dictFind?, List.find?_cons_of_neg _ (by simpa using hk)] at h
      exact List.mem_cons.mpr (Or.inr (ih h))

theorem dictFind?_eq_none_iff {κ ν : Type} [DecidableEq κ] (d : List (κ × ν)) (k : κ) :
    dictFind? d k = none ↔ k ∉ d.map (fun p => p.1) := by
  induction d with
  | nil => simp [dictFind?]
  | cons p d ih =>
    by_cases hk : p.1 = k
    · rw [dictFind?, List.find?_cons_of_pos _ (by simpa using hk)]
      refine iff_of_false (by simp) (fun h => h ?_)
      rw [List.map_cons]
      exact List.mem_cons.mpr (Or.inl hk.symm)
    · rw [dictFind?, List.find?_cons_of_neg _ (by simpa using hk)]
      rw [dictFind?] at ih
      simp only [List.map_cons, List.mem_cons]
      constructor
      · intro h
        intro hor
        rcases hor with h1 | h1
        · exact hk h1.symm
        · exact (ih.mp h) h1
      · intro h
        exact ih.mpr (fun h1 => h (Or.inr h1))

theorem dictFind?_isSome_of_key {κ ν : Type} [DecidableEq κ] (d : List (κ × ν)) (k : κ)
    (hk : k ∈ d.map (fun p => p.1)) : ∃ v, dictFind? d k = some v := by
  cases h : dictFind? d k with
  | none => exact absurd ((dictFind?_eq_none_iff d k).mp h) (by simpa using hk)
  | some v => exact ⟨v, rfl⟩

theorem invertDict_eq_aux (d : List (Char × List Bool)) :
    ∀ acc : List (List Bool × Char),
      ((d.map (fun p => p.2)).Nodup) →
      (∀ p ∈ d, ∀ q ∈ acc, q.1 ≠ p.2) →
      d.foldl (fun acc p => dictInsert acc p.2 p.1) acc = acc ++ d.map (fun p => (p.2, p.1)) := by
  induction d with
  | nil => intro acc _ _; simp
  | cons p d ih =>
    intro acc hnd hfresh
    rw [List.map_cons, List.nodup_cons] at hnd
    simp only [List.foldl_cons, List.map_cons]
    rw [dictInsert_of_fresh acc p.2 p.1
      (fun q hq => hfresh p (List.mem_cons_self _ _) q hq)]
    rw [ih (acc ++ [(p.2, p.1)]) hnd.2 ?_]
    · simp
    · intro r hr q hq
      rcases List.mem_append.mp hq with h | h
      · exact hfresh r (List.mem_cons.mpr (Or.inr hr)) q h
      · have : q = (p.2, p.1) := by simpa using h
        rw [this]
        intro hcontr
        exact hnd.1 (List.mem_map.mpr ⟨r, hr, hcontr.symm⟩)

theorem invertDict_eq (d : List (Char × List Bool))
    (hnd : (d.map (fun p => p.2)).Nodup) :
    invertDict d = d.map (fun p => (p.2, p.1)) := by
  rw [invertDict, invertDict_eq_aux d [] hnd (by simp)]
  simp

/-! ### Paths, subtrees and the preorder code table -/

theorem pathsOf_map_fst (t : Node) : ∀ curr : List Bool,
    (pathsOf t curr).map (fun p => p.1) = t.leavesList.map Node.char := by
  induction t with
  | leaf d c => intro curr; simp [pathsOf, Node.leavesList, Node.char]
  | node d l r ihl ihr =>
    intro curr
    simp only [pathsOf, Node.leavesList, List.map_append, ihl, ihr]

theorem preOrder_eq (t : Node) :
    ∀ (ans : List (Char × List Bool)) (curr : List Bool),
      (t.leavesList.map Node.char).Nodup →
      (∀ p ∈ ans, p.1 ∉ t.leavesList.map Node.char) →
      preOrder t ans curr = ans ++ pathsOf t curr := by
  induction t with
  | leaf d c =>
    intro ans curr _ hdisj
    rw [preOrder, pathsOf]
    exact dictInsert_of_fresh ans c curr
      (fun p hp heq => hdisj p hp (by simp [Node.leavesList, Node.char, heq]))
  | node d l r ihl ihr =>
    intro ans curr hnd hdisj
    rw [Node.leavesList, List.map_append, List.nodup_append] at hnd
    obtain ⟨hndl, hndr, hdisjlr⟩ := hnd
    rw [preOrder]
    rw [ihl ans (curr ++ [false]) hndl
      (fun p hp => fun hc => hdisj p hp
        (by rw [Node.leavesList, List.map_append]; exact List.mem_append.mpr (Or.inl hc)))]
    rw [ihr (ans ++ pathsOf l (curr ++ [false])) (curr ++ [true]) hndr ?_]
    · rw [pathsOf, List.append_assoc]
    · intro p hp
      rcases List.mem_append.mp hp with h | h
      · exact fun hc => hdisj p h
          (by rw [Node.leavesList, List.map_append]; exact List.mem_append.mpr (Or.inr hc))
      · intro hc
        have hpl : p.1 ∈ l.leavesList.map Node.char := by
          rw [← pathsOf_map_fst l (curr ++ [false])]
          exact List.mem_map.mpr ⟨p, h, rfl⟩
        exact hdisjlr hpl hc

theorem subtreeAt_append (p : List Bool) :
    ∀ (t : Node) (q : List Bool),
      subtreeAt t (p ++ q) = (subtreeAt t p).bind (fun u => subtreeAt u q) := by
  induction p with
  | nil => intro t q; simp [subtreeAt]
  | cons b p ih =>
    intro t q
    cases t with
    | leaf d c => simp [subtreeAt]
    | node d l r =>
      rw [List.cons_append, subtreeAt, subtreeAt]
      exact ih _ q

theorem mem_pathsOf_iff (t : Node) :
    ∀ (curr p : List Bool) (c : Char),
      (c, p) ∈ pathsOf t curr ↔
        ∃ q, p = curr ++ q ∧ ∃ w, subtreeAt t q = some (Node.leaf w c) := by
  induction t with
  | leaf d c' =>
    intro curr p c
    constructor
    · intro h
      rw [pathsOf, List.mem_singleton, Prod.mk.injEq] at h
      exact ⟨[], by simp [h.2], d, by simp [subtreeAt, h.1]⟩
    · rintro ⟨q, hp, w, hsub⟩
      cases q with
      | nil =>
        rw [subtreeAt, Option.some_inj] at hsub
        have hc : c' = c := by cases hsub; rfl
        rw [pathsOf, List.mem_singleton, Prod.mk.injEq]
        exact ⟨hc.symm, by simp [hp]⟩
      | cons b q' => rw [subtreeAt] at hsub; cases hsub
  | node d l r ihl ihr =>
    intro curr p c
    rw [pathsOf, List.mem_append, ihl, ihr]
    constructor
    · rintro (⟨q, hp, w, hsub⟩ | ⟨q, hp, w, hsub⟩)
      · exact ⟨false :: q, by simp [hp], w, by simpa [subtreeAt] using hsub⟩
      · exact ⟨true :: q, by simp [hp], w, by simpa [subtreeAt] using hsub⟩
    · rintro ⟨q, hp, w, hsub⟩
      cases q with
      | nil => rw [subtreeAt] at hsub; cases hsub
      | cons b q' =>
        cases b
        · exact Or.inl ⟨q', by simpa using hp, w, by simpa [subtreeAt] using hsub⟩
        · exact Or.inr ⟨q', by simpa using hp, w, by simpa [subtreeAt] using hsub⟩

theorem leaf_path_unique_of_pre (t : Node) (p₁ p₂ : List Bool) (w₁ w₂ : Nat) (c₁ c₂ : Char)
    (h1 : subtreeAt t p₁ = some (Node.leaf w₁ c₁))
    (h2 : subtreeAt t p₂ = some (Node.leaf w₂ c₂))
    (hpre : p₁ <+: p₂) : p₁ = p₂ := by
  obtain ⟨q, rfl⟩ := hpre
  cases q with
  | nil => simp
  | cons b q' =>
    rw [subtreeAt_append, h1] at h2
    rw [Option.some_bind, subtreeAt] at h2
    cases h2

theorem pathsOf_nodup_paths (t : Node) :
    ∀ curr, ((pathsOf t curr).map (fun p => p.2)).Nodup := by
  induction t with
  | leaf d c => intro curr; simp [pathsOf]
  | node d l r ihl ihr =>
    intro curr
    rw [pathsOf, List.map_append, List.nodup_append]
    refine ⟨ihl _, ihr _, ?_⟩
    intro p hpl hpr
    obtain ⟨x, hx, hxp⟩ := List.mem_map.mp hpl
    obtain ⟨y, hy, hyp⟩ := List.mem_map.mp hpr
    obtain ⟨cx, px⟩ := x
    obtain ⟨cy, py⟩ := y
    obtain ⟨qx, hqx, wx, hsx⟩ := (mem_pathsOf_iff l _ _ _).mp hx
    obtain ⟨qy, hqy, wy, hsy⟩ := (mem_pathsOf_iff r _ _ _).mp hy
    dsimp at hxp hyp
    have : px = py := hxp.trans hyp.symm
    rw [hqx, hqy] at this
    have hcat : curr ++ (false :: qx) = curr ++ (true :: qy) := by
      rw [List.append_assoc, List.append_assoc] at this
      exact this
    have := List.append_cancel_left hcat
    cases this

theorem pathsOf_ne_nil (t : Node) (d : Nat) (l r : Node) (ht : t = Node.node d l r)
    (c : Char) (p : List Bool) (hmem : (c, p) ∈ pathsOf t []) : p ≠ [] := by
  obtain ⟨q, hq, w, hsub⟩ := (mem_pathsOf_iff t _ _ _).mp hmem
  simp only [List.nil_append] at hq
  subst hq
  intro hnil
  subst hnil
  rw [subtreeAt, Option.some_inj] at hsub
  rw [ht] at hsub
  cases hsub

/-! ### Table-lookup decoding of concatenated codes -/

theorem invFind_eq_some_iff (t : Node) (p : List Bool) (c : Char) :
    dictFind? (invertDict (pathsOf t [])) p = some c ↔ (c, p) ∈ pathsOf t [] := by
  rw [invertDict_eq _ (pathsOf_nodup_paths t [])]
  constructor
  · intro h
    obtain ⟨x, hx, hswap⟩ := List.mem_map.mp (dictFind?_mem _ _ _ h)
    rw [Prod.mk.injEq] at hswap
    have hxcp : x = (c, p) := Prod.ext hswap.2 hswap.1
    rwa [← hxcp]
  · intro h
    apply dictFind?_eq_some_of_mem
    · exact List.mem_map.mpr ⟨(c, p), h, rfl⟩
    · rw [List.map_map]
      exact pathsOf_nodup_paths t []

theorem invFind_eq_none (t : Node) (p : List Bool)
    (hnp : ∀ c, (c, p) ∉ pathsOf t []) :
    dictFind? (invertDict (pathsOf t [])) p = none := by
  rw [invertDict_eq _ (pathsOf_nodup_paths t []), dictFind?_eq_none_iff, List.map_map]
  intro hmem
  obtain ⟨x, hx, hxp⟩ := List.mem_map.mp hmem
  refine hnp x.1 ?_
  have : (x.1, x.2) = x := rfl
  rw [show p = x.2 from hxp.symm, this]
  exact hx

theorem decodeInverseLoop_code (t : Node)
    (c₀ : Char) (p₀ : List Bool) (hmem : (c₀, p₀) ∈ pathsOf t []) :
    ∀ (rem pre : List Bool), pre ++ rem = p₀ → rem ≠ [] →
      ∀ (rest : List Bool) (out : List Char),
        decodeInverseLoop (invertDict (pathsOf t [])) (rem ++ rest) out pre =
          decodeInverseLoop (invertDict (pathsOf t [])) rest (out ++ [c₀]) [] := by
  obtain ⟨q₀, hq₀, w₀, hsub₀⟩ := (mem_pathsOf_iff t _ _ _).mp hmem
  simp only [List.nil_append] at hq₀
  intro rem
  induction rem with
  | nil => intro pre h hne; exact absurd rfl hne
  | cons b rem' ih =>
    intro pre hpre hne rest out
    rw [List.cons_append, decodeInverseLoop]
    cases rem' with
    | nil =>
      have heq : pre ++ [b] = p₀ := by simpa using hpre
      have hfind : dictFind? (invertDict (pathsOf t [])) (pre ++ [b]) = some c₀ := by
        rw [invFind_eq_some_iff t, heq]
        exact hmem
      rw [hfind]
      simp
    | cons b' rem'' =>
      have hfind : dictFind? (invertDict (pathsOf t [])) (pre ++ [b]) = none := by
        apply invFind_eq_none
        intro c hc
        obtain ⟨q, hq, w, hsub⟩ := (mem_pathsOf_iff t _ _ _).mp hc
        simp only [List.nil_append] at hq
        have hpref : (pre ++ [b]) <+: p₀ := ⟨b' :: rem'', by simpa using hpre⟩
        have : pre ++ [b] = p₀ := by
          rw [hq, hq₀]
          exact leaf_path_unique_of_pre t q q₀ w w₀ c c₀ hsub hsub₀
            (by rw [← hq, ← hq₀]; exact hpref)
        have hlen := congrArg List.length this
        have hlen2 := congrArg List.length hpre
        simp at hlen hlen2
        omega
      rw [hfind]
      exact ih (pre ++ [b]) (by simpa using hpre) (by simp) rest out

theorem decodeInverseLoop_prefix_only (t : Node)
    (c₀ : Char) (p₀ : List Bool) (hmem : (c₀, p₀) ∈ pathsOf t []) :
    ∀ (p pre suffix : List Bool), pre ++ p ++ suffix = p₀ → suffix ≠ [] →
      ∀ out : List Char,
        decodeInverseLoop (invertDict (pathsOf t [])) p out pre = (out, pre ++ p) := by
  obtain ⟨q₀, hq₀, w₀, hsub₀⟩ := (mem_pathsOf_iff t _ _ _).mp hmem
  simp only [List.nil_append] at hq₀
  intro p
  induction p with
  | nil => intro pre suffix h hne out; simp [decodeInverseLoop]
  | cons b p' ih =>
    intro pre suffix hp hne out
    rw [decodeInverseLoop]
    have hfind : dictFind? (invertDict (pathsOf t [])) (pre ++ [b]) = none := by
      apply invFind_eq_none
      intro c hc
      obtain ⟨q, hq, w, hsub⟩ := (mem_pathsOf_iff t _ _ _).mp hc
      simp only [List.nil_append] at hq
      have hpref : (pre ++ [b]) <+: p₀ := ⟨p' ++ suffix, by simpa using hp⟩
      have : pre ++ [b] = p₀ := by
        rw [hq, hq₀]
        exact leaf_path_unique_of_pre t q q₀ w w₀ c c₀ hsub hsub₀
          (by rw [← hq, ← hq₀]; exact hpref)
      have hlen := congrArg List.length this
      have hlen2 := congrArg List.length hp
      have hsuf : 0 < suffix.length := List.length_pos.mpr hne
      simp at hlen hlen2
      omega
    rw [hfind]
    have := ih (pre ++ [b]) suffix (by simpa using hp) hne out
    rw [this]
    simp

theorem decodeInverseLoop_codes_then (t : Node) :
    ∀ (xs : List (Char × List Bool)),
      (∀ x ∈ xs, x ∈ pathsOf t [] ∧ x.2 ≠ []) →
      ∀ (rest : List Bool) (out : List Char),
        decodeInverseLoop (invertDict (pathsOf t []))
            ((xs.map (fun x => x.2)).flatten ++ rest) out [] =
          decodeInverseLoop (invertDict (pathsOf t [])) rest
            (out ++ xs.map (fun x => x.1)) [] := by
  intro xs
  induction xs with
  | nil => intro _ rest out; simp
  | cons x xs ih =>
    intro hxs rest out
    obtain ⟨hxmem, hxne⟩ := hxs x (List.mem_cons_self _ _)
    simp only [List.map_cons, List.flatten_cons, List.append_assoc]
    have hc := decodeInverseLoop_code t x.1 x.2 (by simpa using hxmem)
      x.2 [] (by simp) hxne ((xs.map (fun x => x.2)).flatten ++ rest) out
    simp only [List.nil_append] at hc
    rw [hc]
    rw [ih (fun y hy => hxs y (List.mem_cons.mpr (Or.inr hy))) rest (out ++ [x.1])]
    simp

/-! ### Tree-walk decoding of concatenated codes -/

theorem decodeTreeLoop_code (t : Node) :
    ∀ (p : List Bool) (cur : Node) (w : Nat) (c : Char),
      subtreeAt cur p = some (Node.leaf w c) → p ≠ [] →
      ∀ (rest : List Bool) (out : List Char),
        decodeTreeLoop t cur (p ++ rest) out = decodeTreeLoop t t rest (out ++ [c]) := by
  intro p
  induction p with
  | nil => intro cur w c _ hne; exact absurd rfl hne
  | cons b p' ih =>
    intro cur w c hsub _ rest out
    cases cur with
    | leaf d' c' => rw [subtreeAt] at hsub; cases hsub
    | node d' l r =>
      rw [subtreeAt] at hsub
      rw [List.cons_append, decodeTreeLoop]
      cases p' with
      | nil =>
        rw [subtreeAt, Option.some_inj] at hsub
        rw [hsub]
        simp
      | cons b' p'' =>
        cases hnext : (if b then r else l) with
        | leaf dn cn =>
          rw [hnext, subtreeAt] at hsub
          cases hsub
        | node dn ln rn =>
          rw [hnext] at hsub
          have := ih (Node.node dn ln rn) w c hsub (by simp) rest out
          simpa using this

theorem decodeTreeLoop_mid_descent (t : Node) :
    ∀ (p : List Bool) (cur : Node),
      (∃ d' l' r', subtreeAt cur p = some (Node.node d' l' r')) →
      ∀ out : List Char, decodeTreeLoop t cur p out = some out := by
  intro p
  induction p with
  | nil => intro cur _ out; rfl
  | cons b p' ih =>
    intro cur hsub out
    obtain ⟨d', l', r', hsub⟩ := hsub
    cases cur with
    | leaf dd cc => rw [subtreeAt] at hsub; cases hsub
    | node dd l r =>
      rw [subtreeAt] at hsub
      rw [decodeTreeLoop]
      cases hnext : (if b then r else l) with
      | leaf dn cn =>
        rw [hnext] at hsub
        cases p' with
        | nil => rw [subtreeAt, Option.some_inj] at hsub; cases hsub
        | cons b' p'' => rw [subtreeAt] at hsub; cases hsub
      | node dn ln rn =>
        rw [hnext] at hsub
        have := ih (Node.node dn ln rn) ⟨d', l', r', hsub⟩ out
        simpa using this

theorem decodeTreeLoop_codes_then (t : Node) :
    ∀ (xs : List (Char × List Bool)),
      (∀ x ∈ xs, (∃ w, subtreeAt t x.2 = some (Node.leaf w x.1)) ∧ x.2 ≠ []) →
      ∀ (rest : List Bool) (out : List Char),
        decodeTreeLoop t t ((xs.map (fun x => x.2)).flatten ++ rest) out =
          decodeTreeLoop t t rest (out ++ xs.map (fun x => x.1)) := by
  intro xs
  induction xs with
  | nil => intro _ rest out; simp
  | cons x xs ih =>
    intro hxs rest out
    obtain ⟨⟨w, hxsub⟩, hxne⟩ := hxs x (List.mem_cons_self _ _)
    simp only [List.map_cons, List.flatten_cons, List.append_assoc]
    rw [decodeTreeLoop_code t x.2 t w x.1 hxsub hxne
      ((xs.map (fun x => x.2)).flatten ++ rest) out]
    rw [ih (fun y hy => hxs y (List.mem_cons.mpr (Or.inr hy))) rest (out ++ [x.1])]
    simp

/-! ### Frequency statistics: keys are the distinct symbols in first-seen order -/

theorem charFreqs_step_keys (acc : List (Char × Nat)) (c : Char) :
    ((if acc.any (fun p => p.1 = c) then
        acc.map (fun p => if p.1 = c then (p.1, p.2 + 1) else p)
      else acc ++ [(c, 1)]).map (fun p => p.1)) =
    (if c ∈ acc.map (fun p => p.1) then acc.map (fun p => p.1)
     else acc.map (fun p => p.1) ++ [c]) := by
  by_cases h : c ∈ acc.map (fun p => p.1)
  · have hany : acc.any (fun p => p.1 = c) = true := by
      obtain ⟨x, hx, hxc⟩ := List.mem_map.mp h
      exact List.any_eq_true.mpr ⟨x, hx, by simpa using hxc⟩
    rw [if_pos hany, if_pos h, List.map_map]
    apply List.map_congr_left
    intro x _
    by_cases hx : x.1 = c <;> simp [hx]
  · have hany : ¬ acc.any (fun p => p.1 = c) = true := by
      intro hc
      obtain ⟨x, hx, hxc⟩ := List.any_eq_true.mp hc
      exact h (List.mem_map.mpr ⟨x, hx, by simpa using hxc⟩)
    rw [if_neg hany, if_neg h, List.map_append]
    rfl

theorem charFreqs_keys_fold (text : List Char) :
    ∀ acc : List (Char × Nat),
      ((text.foldl (fun acc c =>
          if acc.any (fun p => p.1 = c) then
            acc.map (fun p => if p.1 = c then (p.1, p.2 + 1) else p)
          else acc ++ [(c, 1)]) acc).map (fun p => p.1)) =
      text.foldl (fun ks c => if c ∈ ks then ks else ks ++ [c])
        (acc.map (fun p => p.1)) := by
  induction text with
  | nil => intro acc; rfl
  | cons c text ih =>
    intro acc
    rw [List.foldl_cons, List.foldl_cons, ih, charFreqs_step_keys]

theorem dedup_fold_nodup (text : List Char) :
    ∀ ks : List Char, ks.Nodup →
      (text.foldl (fun ks c => if c ∈ ks then ks else ks ++ [c]) ks).Nodup := by
  induction text with
  | nil => intro ks h; exact h
  | cons c text ih =>
    intro ks h
    rw [List.foldl_cons]
    by_cases hc : c ∈ ks
    · rw [if_pos hc]; exact ih ks h
    · rw [if_neg hc]
      exact ih _ ((List.nodup_append).mpr ⟨h, List.nodup_singleton c, by simpa using hc⟩)

theorem dedup_fold_mem (text : List Char) :
    ∀ (ks : List Char) (c : Char),
      c ∈ text.foldl (fun ks c => if c ∈ ks then ks else ks ++ [c]) ks ↔
        c ∈ ks ∨ c ∈ text := by
  induction text with
  | nil => intro ks c; simp
  | cons x text ih =>
    intro ks c
    rw [List.foldl_cons]
    by_cases hx : x ∈ ks
    · rw [if_pos hx, ih]
      constructor
      · rintro (h | h)
        · exact Or.inl h
        · exact Or.inr (List.mem_cons.mpr (Or.inr h))
      · rintro (h | h)
        · exact Or.inl h
        · rcases List.mem_cons.mp h with h | h
          · exact Or.inl (h ▸ hx)
          · exact Or.inr h
    · rw [if_neg hx, ih]
      constructor
      · rintro (h | h)
        · rcases List.mem_append.mp h with h | h
          · exact Or.inl h
          · exact Or.inr (List.mem_cons.mpr (Or.inl (by simpa using h)))
        · exact Or.inr (List.mem_cons.mpr (Or.inr h))
      · rintro (h | h)
        · exact Or.inl (List.mem_append.mpr (Or.inl h))
        · rcases List.mem_cons.mp h with h | h
          · exact Or.inl (List.mem_append.mpr (Or.inr (by simpa using h)))
          · exact Or.inr h

theorem charFreqs_keys_nodup (text : List Char) :
    ((charFreqs text).map (fun p => p.1)).Nodup := by
  rw [charFreqs, charFreqs_keys_fold]
  exact dedup_fold_nodup text [] (List.nodup_nil)

theorem mem_charFreqs_keys (text : List Char) (c : Char) :
    c ∈ (charFreqs text).map (fun p => p.1) ↔ c ∈ text := by
  rw [charFreqs, charFreqs_keys_fold]
  rw [dedup_fold_mem text _ c]
  simp

/-! ### Encoding: concatenation of the per-symbol codes, plus padding -/

theorem encodeBits_eq (codes : List (Char × List Bool)) :
    ∀ text : List Char,
      (∀ c ∈ text, ∃ p, dictFind? codes c = some p) →
      ∃ xs : List (Char × List Bool),
        encodeBits codes text = some ((xs.map (fun x => x.2)).flatten) ∧
        xs.map (fun x => x.1) = text ∧
        ∀ x ∈ xs, dictFind? codes x.1 = some x.2 := by
  intro text
  induction text with
  | nil => intro _; exact ⟨[], rfl, rfl, by simp⟩
  | cons c text ih =>
    intro h
    obtain ⟨p, hp⟩ := h c (List.mem_cons_self _ _)
    obtain ⟨xs, hbits, hfst, hall⟩ := ih (fun x hx => h x (List.mem_cons.mpr (Or.inr hx)))
    refine ⟨(c, p) :: xs, ?_, by simp [hfst], ?_⟩
    · rw [encodeBits, hp, hbits]
      simp
    · intro x hx
      rcases List.mem_cons.mp hx with h1 | h1
      · rw [h1]; exact hp
      · exact hall x h1

theorem stripPadding_exact (bits pads : List Bool) :
    stripPadding (bits ++ pads) pads.length = bits := by
  cases hp : pads.length with
  | zero =>
    have : pads = [] := List.length_eq_zero.mp hp
    subst this
    simp [stripPadding]
  | succ n =>
    rw [stripPadding, if_pos (by omega)]
    have hlen : (bits ++ pads).length = bits.length + (n + 1) := by
      rw [List.length_append, hp]
    rw [hlen]
    have hstop : ((bits.length + (n + 1) : Nat) : Int) - ((n + 1 : Nat) : Int)
        = (bits.length : Int) := by push_cast; ring
    rw [show ((n : Nat) + 1 : Nat) = (n + 1 : Nat) from rfl] at hstop
    rw [hstop]
    rw [if_neg (not_lt.mpr (Int.natCast_nonneg _))]
    rw [Int.toNat_natCast]
    exact List.take_left bits pads

/-! ### The degenerate single-symbol alphabet -/

theorem huffmanCodes_single (c : Char) (k : Nat) :
    huffmanCodes [c] [k] = some ([(c, [false])], Node.leaf k c) := rfl

theorem decodeInverseLoop_single (c : Char) :
    ∀ (n : Nat) (out : List Char),
      decodeInverseLoop [([false], c)] (List.replicate n false) out [] =
        (out ++ List.replicate n c, []) := by
  intro n
  induction n with
  | zero => intro out; simp [decodeInverseLoop]
  | succ n ih =>
    intro out
    rw [List.replicate_succ, decodeInverseLoop]
    have hfind : dictFind? [([false], c)] ([] ++ [false]) = some c := by
      simp [dictFind?]
    rw [hfind]
    simpa [List.replicate_succ] using ih (out ++ [c])

theorem encodeBits_single (c : Char) :
    ∀ text : List Char, (∀ x ∈ text, x = c) →
      encodeBits [(c, [false])] text = some (List.replicate text.length false) := by
  intro text
  induction text with
  | nil => intro _; rfl
  | cons x text ih =>
    intro h
    have hx : x = c := h x (List.mem_cons_self _ _)
    subst hx
    rw [encodeBits]
    have hfind : dictFind? [(x, [false])] x = some [false] := by simp [dictFind?]
    rw [hfind, ih (fun y hy => h y (List.mem_cons.mpr (Or.inr hy)))]
    simp [List.replicate_succ]

theorem encode_file_eq (text : List Char) (hne : ¬ text.isEmpty = true)
    (table : List (Char × List Bool)) (root : Node) (encoded : List Bool)
    (hh : huffmanCodes ((charFreqs text).map (fun p => p.1))
        ((charFreqs text).map (fun p => p.2)) = some (table, root))
    (he : encodeBits table text = some encoded) :
    encode_file text = some
      { codes_dic := table
        padding := (8 - encoded.length % 8) % 8
        tree := some root
        payload := encoded ++ List.replicate ((8 - encoded.length % 8) % 8) false } := by
  rw [encode_file, if_neg hne]
  simp only [hh, he]

theorem encode_decode_single (text : List Char) (hne : text ≠ [])
    (p : Char × Nat) (hp : charFreqs text = [p]) :
    ∃ cont : Container,
      encode_file text = some cont ∧
      cont.codes_dic = [(p.1, [false])] ∧
      cont.tree = some (Node.leaf p.2 p.1) ∧
      cont.padding = (8 - text.length % 8) % 8 ∧
      stripPadding cont.payload cont.padding = List.replicate text.length false ∧
      decode_file_inverse cont = text ∧
      decode_file_tree cont = some text := by
  have hall : ∀ x ∈ text, x = p.1 := by
    intro x hx
    have := (mem_charFreqs_keys text x).mpr hx
    rw [hp] at this
    simpa using this
  have htext : text = List.replicate text.length p.1 := List.eq_replicate_of_mem hall
  have hh : huffmanCodes ((charFreqs text).map (fun q => q.1))
      ((charFreqs text).map (fun q => q.2)) = some ([(p.1, [false])], Node.leaf p.2 p.1) := by
    rw [hp]
    exact huffmanCodes_single p.1 p.2
  have he : encodeBits [(p.1, [false])] text = some (List.replicate text.length false) :=
    encodeBits_single p.1 text hall
  set pad := (8 - text.length % 8) % 8 with hpad
  have hcont := encode_file_eq text (by simpa using hne) _ _ _ hh he
  rw [List.length_replicate] at hcont
  refine ⟨_, hcont, rfl, rfl, rfl, ?_, ?_, ?_⟩
  · show stripPadding (List.replicate text.length false ++ List.replicate pad false) pad
        = List.replicate text.length false
    have := stripPadding_exact (List.replicate text.length false) (List.replicate pad false)
    rwa [List.length_replicate] at this
  · show (decodeInverseLoop
        (invertDict [(p.1, [false])])
        (stripPadding (List.replicate text.length false ++ List.replicate pad false) pad)
        [] []).1 = text
    have hstrip : stripPadding (List.replicate text.length false ++ List.replicate pad false) pad
        = List.replicate text.length false := by
      have := stripPadding_exact (List.replicate text.length false) (List.replicate pad false)
      rwa [List.length_replicate] at this
    rw [hstrip]
    have hinv : invertDict [(p.1, [false])] = [([false], p.1)] := rfl
    rw [hinv, decodeInverseLoop_single p.1 text.length []]
    simpa using htext.symm
  · show decode_file_tree _ = some text
    rw [decode_file_tree]
    simp only
    have hstrip : stripPadding (List.replicate text.length false ++ List.replicate pad false) pad
        = List.replicate text.length false := by
      have := stripPadding_exact (List.replicate text.length false) (List.replicate pad false)
      rwa [List.length_replicate] at this
    rw [hstrip, List.length_replicate]
    exact congrArg some htext.symm

/-! ### The general (two or more distinct symbols) round trip -/

theorem zip_charFreqs (text : List Char) :
    ((charFreqs text).map (fun p => p.1)).zip ((charFreqs text).map (fun p => p.2))
      = charFreqs text := by
  rw [List.zip_map']
  simp

theorem encode_decode_multi (text : List Char) (hne : text ≠ [])
    (hge : 2 ≤ ((charFreqs text).map (fun p => p.1)).length) :
    ∃ (cont : Container) (root : Node) (xs : List (Char × List Bool)),
      encode_file text = some cont ∧
      cont.codes_dic = pathsOf root [] ∧
      cont.tree = some root ∧
      (∃ d l r, root = Node.node d l r) ∧
      (root.leavesList.map Node.char).Nodup ∧
      (root.leavesList.map Node.char).Perm ((charFreqs text).map (fun p => p.1)) ∧
      stripPadding cont.payload cont.padding = (xs.map (fun x => x.2)).flatten ∧
      xs.map (fun x => x.1) = text ∧
      (∀ x ∈ xs, x ∈ pathsOf root []) := by
  set keys := (charFreqs text).map (fun p => p.1) with hkeys
  set freqs := (charFreqs text).map (fun p => p.2) with hfreqs
  have hlen : keys.length ≤ freqs.length := by
    rw [hkeys, hfreqs, List.length_map, List.length_map]
  obtain ⟨table, root, hh, htable, hint, hleaves⟩ :=
    huffmanCodes_general keys freqs hlen hge
  have hcharperm : (root.leavesList.map Node.char).Perm keys := by
    have h1 := hleaves.map Node.char
    rw [List.map_map] at h1
    have h2 : (keys.zip freqs).map (Node.char ∘ fun p => Node.leaf p.2 p.1)
        = (keys.zip freqs).map (fun p => p.1) := by
      apply List.map_congr_left
      intro x _
      rfl
    rw [h2, List.map_fst_zip keys freqs hlen] at h1
    exact h1
  have hnodupchars : (root.leavesList.map Node.char).Nodup :=
    hcharperm.nodup_iff.mpr (hkeys ▸ charFreqs_keys_nodup text)
  have htable' : table = pathsOf root [] := by
    rw [htable]
    exact preOrder_eq root [] [] hnodupchars (by simp)
  have hlookup : ∀ c ∈ text, ∃ p, dictFind? table c = some p := by
    intro c hc
    apply dictFind?_isSome_of_key
    rw [htable', pathsOf_map_fst]
    exact hcharperm.mem_iff.mpr ((mem_charFreqs_keys text c).mpr hc)
  obtain ⟨xs, hbits, hfst, hall⟩ := encodeBits_eq table text hlookup
  have hxsmem : ∀ x ∈ xs, x ∈ pathsOf root [] := by
    intro x hx
    have := dictFind?_mem table x.1 x.2 (hall x hx)
    rwa [htable'] at this
  have hcont := encode_file_eq text (by simpa using hne) table root _ hh hbits
  refine ⟨_, root, xs, hcont, htable', rfl, hint, hnodupchars, hcharperm, ?_, hfst, hxsmem⟩
  show stripPadding ((xs.map (fun x => x.2)).flatten ++
      List.replicate ((8 - ((xs.map (fun x => x.2)).flatten).length % 8) % 8) false)
      ((8 - ((xs.map (fun x => x.2)).flatten).length % 8) % 8)
      = (xs.map (fun x => x.2)).flatten
  have := stripPadding_exact ((xs.map (fun x => x.2)).flatten)
    (List.replicate ((8 - ((xs.map (fun x => x.2)).flatten).length % 8) % 8) false)
  rwa [List.length_replicate] at this

theorem decode_inverse_of_parts (cont : Container) (root : Node)
    (xs : List (Char × List Bool))
    (hcd : cont.codes_dic = pathsOf root [])
    (hint : ∃ d l r, root = Node.node d l r)
    (hstrip : stripPadding cont.payload cont.padding = (xs.map (fun x => x.2)).flatten)
    (hxsmem : ∀ x ∈ xs, x ∈ pathsOf root []) :
    decode_file_inverse cont = xs.map (fun x => x.1) := by
  obtain ⟨d, l, r, hroot⟩ := hint
  rw [decode_file_inverse]
  simp only [hcd, hstrip]
  rw [← List.append_nil ((xs.map (fun x => x.2)).flatten)]
  rw [decodeInverseLoop_codes_then root xs
    (fun x hx => ⟨hxsmem x hx, pathsOf_ne_nil root d l r hroot x.1 x.2 (by simpa using hxsmem x hx)⟩)
    [] []]
  rfl

theorem decode_tree_of_parts (cont : Container) (root : Node)
    (xs : List (Char × List Bool))
    (htree : cont.tree = some root)
    (hint : ∃ d l r, root = Node.node d l r)
    (hstrip : stripPadding cont.payload cont.padding = (xs.map (fun x => x.2)).flatten)
    (hxsmem : ∀ x ∈ xs, x ∈ pathsOf root []) :
    decode_file_tree cont = some (xs.map (fun x => x.1)) := by
  obtain ⟨d, l, r, hroot⟩ := hint
  rw [decode_file_tree, htree]
  subst hroot
  simp only [hstrip]
  rw [← List.append_nil ((xs.map (fun x => x.2)).flatten)]
  rw [decodeTreeLoop_codes_then (Node.node d l r) xs ?_ [] []]
  · rfl
  · intro x hx
    have hmem := hxsmem x hx
    obtain ⟨q, hq, w, hsub⟩ := (mem_pathsOf_iff _ _ _ _).mp (by simpa using hmem)
    simp only [List.nil_append] at hq
    refine ⟨⟨w, by rw [hq]; exact hsub⟩, ?_⟩
    exact pathsOf_ne_nil _ d l r rfl x.1 x.2 (by simpa using hmem)

/-! ### Assembly helpers -/

theorem charFreqs_cases (text : List Char) (hne : text ≠ []) :
    (∃ p, charFreqs text = [p]) ∨ 2 ≤ ((charFreqs text).map (fun p => p.1)).length := by
  cases hcf : charFreqs text with
  | nil =>
    exfalso
    obtain ⟨c, hc⟩ := List.exists_mem_of_ne_nil text hne
    have := (mem_charFreqs_keys text c).mpr hc
    rw [hcf] at this
    simp at this
  | cons p rest =>
    cases rest with
    | nil => exact Or.inl ⟨p, rfl⟩
    | cons q rest' =>
      right
      simp only [List.map_cons, List.length_cons]
      omega

theorem charFreqs_replicate_aux (ch : Char) :
    ∀ (n k : Nat),
      (List.replicate n ch).foldl
        (fun acc c =>
          if acc.any (fun p => p.1 = c) then
            acc.map (fun p => if p.1 = c then (p.1, p.2 + 1) else p)
          else acc ++ [(c, 1)]) [(ch, k)] = [(ch, k + n)] := by
  intro n
  induction n with
  | zero => intro k; simp
  | succ n ih =>
    intro k
    rw [List.replicate_succ, List.foldl_cons]
    have hstep : (if [(ch, k)].any (fun p => p.1 = ch) then
        [(ch, k)].map (fun p => if p.1 = ch then (p.1, p.2 + 1) else p)
      else [(ch, k)] ++ [(ch, 1)]) = [(ch, k + 1)] := by simp
    rw [hstep, ih (k + 1)]
    have : k + 1 + n = k + (n + 1) := by omega
    rw [this]

theorem charFreqs_replicate (ch : Char) (n : Nat) (h : 1 ≤ n) :
    charFreqs (List.replicate n ch) = [(ch, n)] := by
  obtain ⟨m, rfl⟩ : ∃ m, n = m + 1 := ⟨n - 1, by omega⟩
  rw [charFreqs, List.replicate_succ, List.foldl_cons]
  have hstep : (if ([] : List (Char × Nat)).any (fun p => p.1 = ch) then
      ([] : List (Char × Nat)).map (fun p => if p.1 = ch then (p.1, p.2 + 1) else p)
    else ([] : List (Char × Nat)) ++ [(ch, 1)]) = [(ch, 1)] := by simp
  rw [hstep, charFreqs_replicate_aux ch m 1]
  have : 1 + m = m + 1 := by omega
  rw [this]

theorem encode_file_shape (text : List Char) (cont : Container)
    (h : encode_file text = some cont) :
    ∃ encoded : List Bool,
      cont.padding = (8 - encoded.length % 8) % 8 ∧
      cont.payload = encoded ++ List.replicate cont.padding false ∧
      cont.tree.isSome = true := by
  rw [encode_file] at h
  by_cases hemp : text.isEmpty
  · rw [if_pos hemp] at h; cases h
  · rw [if_neg hemp] at h
    dsimp only at h
    cases hh : huffmanCodes ((charFreqs text).map (fun p => p.1))
        ((charFreqs text).map (fun p => p.2)) with
    | none => rw [hh] at h; cases h
    | some tr =>
      obtain ⟨table, root⟩ := tr
      rw [hh] at h
      dsimp only at h
      cases hb : encodeBits table text with
      | none => rw [hb] at h; cases h
      | some encoded =>
        rw [hb] at h
        dsimp only at h
        simp only [Option.some_inj] at h
        refine ⟨encoded, ?_, ?_, ?_⟩ <;> rw [← h] <;> rfl

theorem round_trip_spec (text : List Char) (hne : text ≠ []) :
    ∃ cont : Container, encode_file text = some cont ∧
      decode_file_inverse cont = text ∧ decode_file_tree cont = some text := by
  rcases charFreqs_cases text hne with ⟨p, hp⟩ | hge
  · obtain ⟨cont, henc, _, _, _, _, hdec1, hdec2⟩ := encode_decode_single text hne p hp
    exact ⟨cont, henc, hdec1, hdec2⟩
  · obtain ⟨cont, root, xs, henc, hcd, htree, hint, _, _, hstrip, hfst, hmem⟩ :=
      encode_decode_multi text hne hge
    refine ⟨cont, henc, ?_, ?_⟩
    · rw [decode_inverse_of_parts cont root xs hcd hint hstrip hmem, hfst]
    · rw [decode_tree_of_parts cont root xs htree hint hstrip hmem, hfst]

theorem subtreeAt_internal_of_proper (root : Node) (p₀ pp suf : List Bool) (w : Nat) (c : Char)
    (hsub : subtreeAt root p₀ = some (Node.leaf w c)) (hsuf : suf ≠ [])
    (hsplit : pp ++ suf = p₀) :
    ∃ d' l' r', subtreeAt root pp = some (Node.node d' l' r') := by
  rw [← hsplit, subtreeAt_append] at hsub
  cases hu : subtreeAt root pp with
  | none => rw [hu] at hsub; cases hsub
  | some u =>
    rw [hu, Option.some_bind] at hsub
    cases u with
    | leaf du cu =>
      cases suf with
      | nil => exact absurd rfl hsuf
      | cons b suf' => rw [subtreeAt] at hsub; cases hsub
    | node du lu ru => exact ⟨du, lu, ru, rfl⟩

/-! ## Claim theorems -/

/-- C1: Round-trip — for every non-empty input text, encoding to a container
and decoding that container reproduces the text exactly, both with the
table-lookup strategy (`decode_file_inverse`) and with the tree-walk strategy
(`decode_file_tree`). -/
theorem c1_round_trip (text : List Char) (hne : text ≠ []) :
    ∃ cont : Container, encode_file text = some cont ∧
      decode_file_inverse cont = text ∧ decode_file_tree cont = some text :=
  round_trip_spec text hne

theorem c1_round_trip_witness :
    (['a', 'b', 'c'] : List Char) ≠ [] ∧
    (∃ cont : Container, encode_file ['a', 'b', 'c'] = some cont ∧
      decode_file_inverse cont = ['a', 'b', 'c'] ∧
      decode_file_tree cont = some ['a', 'b', 'c']) :=
  ⟨by decide, c1_round_trip ['a', 'b', 'c'] (by decide)⟩

/-- C2 as stated is false: the header of a container does not tie the code
table to the tree, so a container whose table and tree disagree is decoded
differently by the two strategies.  Here the table maps `'a'` to `0` while the
tree is the single leaf `'b'`: the table decoder emits eight `'a'`s, the tree
decoder eight `'b'`s. -/
theorem c2_decoder_agreement_cex :
    decode_file_inverse
        { codes_dic := [('a', [false])], padding := 0,
          tree := some (Node.leaf 1 'b'), payload := List.replicate 8 false }
      = List.replicate 8 'a' ∧
    decode_file_tree
        { codes_dic := [('a', [false])], padding := 0,
          tree := some (Node.leaf 1 'b'), payload := List.replicate 8 false }
      = some (List.replicate 8 'b') ∧
    decode_file_tree
        { codes_dic := [('a', [false])], padding := 0,
          tree := some (Node.leaf 1 'b'), payload := List.replicate 8 false }
      ≠ some (decode_file_inverse
        { codes_dic := [('a', [false])], padding := 0,
          tree := some (Node.leaf 1 'b'), payload := List.replicate 8 false }) := by
  refine ⟨by decide, by decide, by decide⟩

/-- C2 amended: for every container actually produced by `encode_file` (whose
header table, tree and payload are consistent), the table-lookup decoder and
the tree-walk decoder produce identical symbol sequences. -/
theorem c2_decoder_agreement (text : List Char) (cont : Container)
    (hne : text ≠ []) (henc : encode_file text = some cont) :
    decode_file_tree cont = some (decode_file_inverse cont) := by
  obtain ⟨cont', henc', h1, h2⟩ := round_trip_spec text hne
  rw [henc] at henc'
  obtain rfl := Option.some_inj.mp henc'
  rw [h1, h2]

theorem c2_decoder_agreement_witness :
    (['a', 'b'] : List Char) ≠ [] ∧
    encode_file ['a', 'b'] = some
      { codes_dic := [('a', [false]), ('b', [true])], padding := 6,
        tree := some (Node.node 2 (Node.leaf 1 'a') (Node.leaf 1 'b')),
        payload := [false, true, false, false, false, false, false, false] } ∧
    decode_file_tree
        { codes_dic := [('a', [false]), ('b', [true])], padding := 6,
          tree := some (Node.node 2 (Node.leaf 1 'a') (Node.leaf 1 'b')),
          payload := [false, true, false, false, false, false, false, false] }
      = some (decode_file_inverse
        { codes_dic := [('a', [false]), ('b', [true])], padding := 6,
          tree := some (Node.node 2 (Node.leaf 1 'a') (Node.leaf 1 'b')),
          payload := [false, true, false, false, false, false, false, false] }) :=
  ⟨by decide, by decide, c2_decoder_agreement ['a', 'b'] _ (by decide) (by decide)⟩

/-- C4 as stated is false: `Node.__lt__` compares weights only, so equal-weight
ties are resolved by `heapq`'s internal array order, not by the minimum
first-seen order of the subtree.  For four symbols `a,b,c,d` of frequency 1
(first-seen in that order) the construction merges `a` with `c` first, whereas
the claimed policy merges `a` with `b`; the codes differ at `'b'` (`10` from
the code, `01` under the policy). -/
theorem c4_tie_break_cex :
    huffmanCodes ['a', 'b', 'c', 'd'] [1, 1, 1, 1] ≠
      huffmanCodesSpec ['a', 'b', 'c', 'd'] [1, 1, 1, 1] ∧
    (huffmanCodes ['a', 'b', 'c', 'd'] [1, 1, 1, 1]).map
        (fun r => dictFind? r.1 'b') = some (some [true, false]) ∧
    (huffmanCodesSpec ['a', 'b', 'c', 'd'] [1, 1, 1, 1]).map
        (fun r => dictFind? r.1 'b') = some (some [false, true]) := by
  refine ⟨by decide, by decide, by decide⟩

/-- C4 amended: the tree shape and codes are still a deterministic function of
the frequency table in first-seen order, but equal-weight ties follow
`heapq`'s array order.  For `a,b,c,d` all of frequency 1 the code's result is
the merge of `a` with `c` and of `b` with `d`, with codes
`a=00, c=01, b=10, d=11`. -/
theorem c4_tie_break :
    huffmanCodes ['a', 'b', 'c', 'd'] [1, 1, 1, 1] =
      some ([('a', [false, false]), ('c', [false, true]),
             ('b', [true, false]), ('d', [true, true])],
        Node.node 4 (Node.node 2 (Node.leaf 1 'a') (Node.leaf 1 'c'))
          (Node.node 2 (Node.leaf 1 'b') (Node.leaf 1 'd'))) := by
  decide

/-- C5: for every non-empty frequency table (distinct symbols, one frequency
per symbol), `huffmanCodes` returns a table with exactly one entry per
symbol, every bitstring non-empty, and no entry's bitstring a prefix of a
different entry's bitstring. -/
theorem c5_code_table_invariant (s : List Char) (freq : List Nat)
    (hnd : s.Nodup) (hne : s ≠ []) (hlen : s.length = freq.length) :
    ∃ (table : List (Char × List Bool)) (root : Node),
      huffmanCodes s freq = some (table, root) ∧
      (table.map (fun p => p.1)).Perm s ∧
      (∀ p ∈ table, p.2 ≠ []) ∧
      (∀ p ∈ table, ∀ q ∈ table, p.1 ≠ q.1 → ¬ p.2 <+: q.2) := by
  rcases Nat.lt_or_ge s.length 2 with hlt | hge
  · have h1 : s.length = 1 := by
      have : 0 < s.length := List.length_pos.mpr hne
      omega
    obtain ⟨c, rfl⟩ := List.length_eq_one.mp h1
    obtain ⟨k, rfl⟩ := List.length_eq_one.mp (hlen ▸ h1)
    refine ⟨[(c, [false])], Node.leaf k c, huffmanCodes_single c k, by simp, by simp, ?_⟩
    intro p hp q hq hne'
    exfalso
    rw [List.mem_singleton] at hp hq
    rw [hp, hq] at hne'
    exact hne' rfl
  · obtain ⟨table, root, hh, htable, hint, hleaves⟩ :=
      huffmanCodes_general s freq (by omega) hge
    have hcharperm : (root.leavesList.map Node.char).Perm s := by
      have h1 := hleaves.map Node.char
      rw [List.map_map] at h1
      have h2 : ((s.zip freq).map (Node.char ∘ fun p => Node.leaf p.2 p.1))
          = (s.zip freq).map (fun p => p.1) :=
        List.map_congr_left (fun x _ => rfl)
      rw [h2, List.map_fst_zip s freq (by omega)] at h1
      exact h1
    have hnodupchars : (root.leavesList.map Node.char).Nodup :=
      hcharperm.nodup_iff.mpr hnd
    have htable' : table = pathsOf root [] := by
      rw [htable]
      exact preOrder_eq root [] [] hnodupchars (by simp)
    refine ⟨table, root, hh, ?_, ?_, ?_⟩
    · rw [htable', pathsOf_map_fst]
      exact hcharperm
    · intro p hp
      obtain ⟨d, l, r, hroot⟩ := hint
      rw [htable'] at hp
      exact pathsOf_ne_nil root d l r hroot p.1 p.2 (by simpa using hp)
    · intro p hp q hq hpq
      rw [htable'] at hp hq
      obtain ⟨qp, hqp, wp, hsp⟩ := (mem_pathsOf_iff root _ _ _).mp (by simpa using hp)
      obtain ⟨qq, hqq, wq, hsq⟩ := (mem_pathsOf_iff root _ _ _).mp (by simpa using hq)
      simp only [List.nil_append] at hqp hqq
      intro hpre
      have heq : qp = qq := by
        have h3 : p.2 = q.2 := by
          rw [hqp, hqq]
          exact leaf_path_unique_of_pre root qp qq wp wq p.1 q.1 hsp hsq
            (by rw [← hqp, ← hqq]; exact hpre)
        rw [hqp, hqq] at h3
        exact h3
      rw [heq] at hsp
      have hcontra := Option.some_inj.mp (hsp.symm.trans hsq)
      injection hcontra with h1 h2
      exact hpq h2

theorem c5_code_table_invariant_witness :
    (['a', 'b', 'c'] : List Char).Nodup ∧ (['a', 'b', 'c'] : List Char) ≠ [] ∧
      (['a', 'b', 'c'] : List Char).length = [3, 2, 1].length ∧
    (∃ (table : List (Char × List Bool)) (root : Node),
      huffmanCodes ['a', 'b', 'c'] [3, 2, 1] = some (table, root) ∧
      (table.map (fun p => p.1)).Perm ['a', 'b', 'c'] ∧
      (∀ p ∈ table, p.2 ≠ []) ∧
      (∀ p ∈ table, ∀ q ∈ table, p.1 ≠ q.1 → ¬ p.2 <+: q.2)) :=
  ⟨by decide, by decide, by decide,
    c5_code_table_invariant ['a', 'b', 'c'] [3, 2, 1] (by decide) (by decide) (by decide)⟩

/-- C6 as stated is false: the decoders never raise on a truncated stream.
Here the stripped payload is `01`, which ends inside a code (`'a' = 0`,
`'b' = 10`, `'c' = 11`): the table decoder finishes with the non-empty,
non-matching accumulator `1` and still writes `"a"`; the tree decoder is
mid-descent at the end and also returns `"a"`.  Neither signals an error. -/
theorem c6_truncated_cex :
    decode_file_inverse
        { codes_dic := [('a', [false]), ('b', [true, false]), ('c', [true, true])],
          padding := 6,
          tree := some (Node.node 4 (Node.leaf 2 'a')
            (Node.node 2 (Node.leaf 1 'b') (Node.leaf 1 'c'))),
          payload := [false, true, false, false, false, false, false, false] }
      = ['a'] ∧
    (decodeInverseLoop
        (invertDict [('a', [false]), ('b', [true, false]), ('c', [true, true])])
        (stripPadding [false, true, false, false, false, false, false, false] 6)
        [] []).2 = [true] ∧
    dictFind? (invertDict [('a', [false]), ('b', [true, false]), ('c', [true, true])])
        [true] = none ∧
    decode_file_tree
        { codes_dic := [('a', [false]), ('b', [true, false]), ('c', [true, true])],
          padding := 6,
          tree := some (Node.node 4 (Node.leaf 2 'a')
            (Node.node 2 (Node.leaf 1 'b') (Node.leaf 1 'c'))),
          payload := [false, true, false, false, false, false, false, false] }
      = some ['a'] := by
  refine ⟨by decide, by decide, by decide, by decide⟩

/-- C6 amended: when the bit payload of an `encode_file` container is extended
with a non-empty strict prefix of one of its codes (so the stream is exhausted
mid-code — the table decoder ends with a non-empty, non-matching accumulator
and the tree decoder ends mid-descent), both decoders silently discard the
incomplete code and return the symbols decoded so far; no error is raised. -/
theorem c6_truncated_silent (text : List Char)
    (cont : Container) (c₀ : Char) (p₀ pp suf : List Bool)
    (hne : text ≠ [])
    (hge : 2 ≤ ((charFreqs text).map (fun p => p.1)).length)
    (henc : encode_file text = some cont)
    (hmem : (c₀, p₀) ∈ cont.codes_dic)
    (hpp : pp ≠ []) (hsuf : suf ≠ []) (hsplit : pp ++ suf = p₀) :
    decode_file_inverse
        { cont with payload := stripPadding cont.payload cont.padding ++ pp, padding := 0 }
      = text ∧
    decode_file_tree
        { cont with payload := stripPadding cont.payload cont.padding ++ pp, padding := 0 }
      = some text := by
  obtain ⟨cont', root, xs, henc', hcd, htree, hint, hnd, hperm, hstrip, hfst, hxsmem⟩ :=
    encode_decode_multi text hne hge
  rw [henc] at henc'
  obtain rfl := Option.some_inj.mp henc'
  obtain ⟨d, l, r, hroot⟩ := hint
  rw [hcd] at hmem
  obtain ⟨q₀, hq₀, w₀, hsub₀⟩ := (mem_pathsOf_iff root _ _ _).mp hmem
  simp only [List.nil_append] at hq₀
  subst hq₀
  have hxsne : ∀ x ∈ xs, x ∈ pathsOf root [] ∧ x.2 ≠ [] := fun x hx =>
    ⟨hxsmem x hx, pathsOf_ne_nil root d l r hroot x.1 x.2 (by simpa using hxsmem x hx)⟩
  have hstrip0 : stripPadding (stripPadding cont.payload cont.padding ++ pp) 0
      = (xs.map (fun x => x.2)).flatten ++ pp := by
    rw [stripPadding, if_neg (by simp), hstrip]
  constructor
  · rw [decode_file_inverse]
    simp only [hcd, hstrip0]
    rw [decodeInverseLoop_codes_then root xs hxsne pp []]
    rw [decodeInverseLoop_prefix_only root c₀ p₀ hmem pp [] suf (by simpa using hsplit) hsuf]
    simpa using hfst
  · rw [decode_file_tree]
    simp only [htree]
    subst hroot
    simp only [hstrip0]
    rw [decodeTreeLoop_codes_then (Node.node d l r) xs ?_ pp []]
    · rw [decodeTreeLoop_mid_descent (Node.node d l r) pp (Node.node d l r)
        (subtreeAt_internal_of_proper (Node.node d l r) p₀ pp suf w₀ c₀ hsub₀ hsuf hsplit)]
      rw [hfst]
      simp
    · intro x hx
      have hmemx := hxsmem x hx
      obtain ⟨q, hq, w, hsub⟩ := (mem_pathsOf_iff _ _ _ _).mp (by simpa using hmemx)
      simp only [List.nil_append] at hq
      exact ⟨⟨w, by rw [hq]; exact hsub⟩,
        pathsOf_ne_nil _ d l r rfl x.1 x.2 (by simpa using hmemx)⟩

theorem c6_truncated_silent_witness :
    (['a', 'b', 'c'] : List Char) ≠ [] ∧
    2 ≤ ((charFreqs ['a', 'b', 'c']).map (fun p => p.1)).length ∧
    encode_file ['a', 'b', 'c'] = some
      { codes_dic := [('c', [false]), ('a', [true, false]), ('b', [true, true])],
        padding := 3,
        tree := some (Node.node 3 (Node.leaf 1 'c')
          (Node.node 2 (Node.leaf 1 'a') (Node.leaf 1 'b'))),
        payload := [true, false, true, true, false, false, false, false] } ∧
    ('a', [true, false]) ∈
      [('c', [false]), ('a', [true, false]), ('b', [true, true])] ∧
    ([true] : List Bool) ≠ [] ∧ ([false] : List Bool) ≠ [] ∧
    [true] ++ [false] = [true, false] ∧
    (decode_file_inverse
        { codes_dic := [('c', [false]), ('a', [true, false]), ('b', [true, true])],
          padding := 0,
          tree := some (Node.node 3 (Node.leaf 1 'c')
            (Node.node 2 (Node.leaf 1 'a') (Node.leaf 1 'b'))),
          payload := [true, false, true, true, false, true] }
      = ['a', 'b', 'c'] ∧
    decode_file_tree
        { codes_dic := [('c', [false]), ('a', [true, false]), ('b', [true, true])],
          padding := 0,
          tree := some (Node.node 3 (Node.leaf 1 'c')
            (Node.node 2 (Node.leaf 1 'a') (Node.leaf 1 'b'))),
          payload := [true, false, true, true, false, true] }
      = some ['a', 'b', 'c']) := by
  refine ⟨by decide, by decide, by decide, by decide, by decide, by decide, by decide, ?_⟩
  have h := c6_truncated_silent ['a', 'b', 'c']
    { codes_dic := [('c', [false]), ('a', [true, false]), ('b', [true, true])],
      padding := 3,
      tree := some (Node.node 3 (Node.leaf 1 'c')
        (Node.node 2 (Node.leaf 1 'a') (Node.leaf 1 'b'))),
      payload := [true, false, true, true, false, false, false, false] }
    'a' [true, false] [true] [false]
    (by decide) (by decide) (by decide) (by decide) (by decide) (by decide) (by decide)
  rw [show stripPadding [true, false, true, true, false, false, false, false] 3
      = [true, false, true, true, false] from by decide] at h
  rw [show ([true, false, true, true, false] ++ [true] : List Bool)
      = [true, false, true, true, false, true] from by decide] at h
  exact h

/-- C7: for every zero-length input text, `encode_file` fails (the source
prints an error and returns `None`, modelled as `none`) and produces no
container. -/
theorem c7_empty_input : encode_file [] = none := rfl

/-- C8: for every input consisting of `N ≥ 1` repetitions of one symbol, the
code table assigns that symbol the one-bit code `0`, the packed payload
before padding is exactly `N` zero bits, and both decoders yield `N` copies
of the symbol. -/
theorem c8_degenerate (ch : Char) (N : Nat) (hN : 1 ≤ N) :
    ∃ cont : Container,
      encode_file (List.replicate N ch) = some cont ∧
      cont.codes_dic = [(ch, [false])] ∧
      stripPadding cont.payload cont.padding = List.replicate N false ∧
      decode_file_inverse cont = List.replicate N ch ∧
      decode_file_tree cont = some (List.replicate N ch) := by
  have hne : List.replicate N ch ≠ [] := by
    intro h
    have := congrArg List.length h
    simp at this
    omega
  obtain ⟨cont, henc, hcd, _, _, hstrip, hdec1, hdec2⟩ :=
    encode_decode_single (List.replicate N ch) hne (ch, N)
      (charFreqs_replicate ch N hN)
  refine ⟨cont, henc, hcd, ?_, hdec1, hdec2⟩
  rw [hstrip, List.length_replicate]

theorem c8_degenerate_witness :
    1 ≤ 5 ∧
    (∃ cont : Container,
      encode_file (List.replicate 5 'x') = some cont ∧
      cont.codes_dic = [('x', [false])] ∧
      stripPadding cont.payload cont.padding = List.replicate 5 false ∧
      decode_file_inverse cont = List.replicate 5 'x' ∧
      decode_file_tree cont = some (List.replicate 5 'x')) :=
  ⟨by decide, c8_degenerate 'x' 5 (by decide)⟩

/-- C9: every container produced by `encode_file` has `padding < 8`, a
payload whose bit-length is a multiple of 8, and all-zero padding bits (the
last `padding` bits of the payload). -/
theorem c9_padding_bound (text : List Char) (cont : Container)
    (henc : encode_file text = some cont) :
    cont.padding < 8 ∧ cont.payload.length % 8 = 0 ∧
      cont.payload.drop (cont.payload.length - cont.padding)
        = List.replicate cont.padding false := by
  obtain ⟨encoded, hpad, hpay, _⟩ := encode_file_shape text cont henc
  have hlen : cont.payload.length = encoded.length + cont.padding := by
    rw [hpay, List.length_append, List.length_replicate]
  refine ⟨by rw [hpad]; exact Nat.mod_lt _ (by norm_num), ?_, ?_⟩
  · rw [hlen, hpad]
    omega
  · rw [hlen, Nat.add_sub_cancel, hpay, List.drop_left]

theorem c9_padding_bound_witness :
    encode_file ['a', 'b'] = some
      { codes_dic := [('a', [false]), ('b', [true])], padding := 6,
        tree := some (Node.node 2 (Node.leaf 1 'a') (Node.leaf 1 'b')),
        payload := [false, true, false, false, false, false, false, false] } ∧
    ((6 : Nat) < 8 ∧
      ([false, true, false, false, false, false, false, false] : List Bool).length % 8 = 0 ∧
      ([false, true, false, false, false, false, false, false] : List Bool).drop
          (([false, true, false, false, false, false, false, false] : List Bool).length - 6)
        = List.replicate 6 false) :=
  ⟨by decide, c9_padding_bound ['a', 'b']
    { codes_dic := [('a', [false]), ('b', [true])], padding := 6,
      tree := some (Node.node 2 (Node.leaf 1 'a') (Node.leaf 1 'b')),
      payload := [false, true, false, false, false, false, false, false] }
    (by decide)⟩

/-- C10 (implicit): every container written by `encode_file` carries the full
header — in this embedding `codes_dic` and `padding` are always-present
fields, and the `tree` entry is never `None` — so `decode_file_tree`'s
missing-tree failure branch is unreachable on such containers and both decode
strategies are available. -/
theorem c10_header_completeness (text : List Char) (cont : Container)
    (henc : encode_file text = some cont) :
    cont.tree.isSome = true ∧ decode_file_tree cont ≠ none := by
  obtain ⟨_, _, _, htree⟩ := encode_file_shape text cont henc
  refine ⟨htree, ?_⟩
  have hne : text ≠ [] := by
    rintro rfl
    rw [show encode_file ([] : List Char) = none from rfl] at henc
    cases henc
  obtain ⟨cont', henc', _, hdec⟩ := round_trip_spec text hne
  rw [henc] at henc'
  obtain rfl := Option.some_inj.mp henc'
  rw [hdec]
  simp

theorem c10_header_completeness_witness :
    encode_file ['a', 'b'] = some
      { codes_dic := [('a', [false]), ('b', [true])], padding := 6,
        tree := some (Node.node 2 (Node.leaf 1 'a') (Node.leaf 1 'b')),
        payload := [false, true, false, false, false, false, false, false] } ∧
    (({ codes_dic := [('a', [false]), ('b', [true])], padding := 6,
        tree := some (Node.node 2 (Node.leaf 1 'a') (Node.leaf 1 'b')),
        payload := [false, true, false, false, false, false, false, false] } : Container).tree.isSome
        = true ∧
      decode_file_tree
        { codes_dic := [('a', [false]), ('b', [true])], padding := 6,
          tree := some (Node.node 2 (Node.leaf 1 'a') (Node.leaf 1 'b')),
          payload := [false, true, false, false, false, false, false, false] } ≠ none) :=
  ⟨by decide, c10_header_completeness ['a', 'b']
    { codes_dic := [('a', [false]), ('b', [true])], padding := 6,
      tree := some (Node.node 2 (Node.leaf 1 'a') (Node.leaf 1 'b')),
      payload := [false, true, false, false, false, false, false, false] }
    (by decide)⟩

/-! ### The heap ordering invariant: pops return minimum-weight nodes -/

theorem heapVal_set_ne (l : List Node) (i k : Nat) (a : Node) (h : i ≠ k) :
    heapVal (l.set i a) k = heapVal l k := by
  rw [heapVal, heapVal, getD_set_ne l i k a h]

theorem heapVal_set_self (l : List Node) (k : Nat) (a : Node) (h : k < l.length) :
    heapVal (l.set k a) k = a.data := by
  rw [heapVal, List.getD_eq_getElem _ _ (by simpa using h),
    List.getElem_set_eq (by simpa using h)]

theorem heapVal_eq (l : List Node) (k : Nat) (h : k < l.length) :
    heapVal l k = l[k].data := by
  rw [heapVal, List.getD_eq_getElem _ _ h]

theorem isHeap_root_min (l : List Node) (hh : IsHeap l) :
    ∀ i, i < l.length → heapVal l 0 ≤ heapVal l i := by
  intro i
  induction i using Nat.strong_induction_on with
  | _ i ih =>
    intro hi
    cases Nat.eq_zero_or_pos i with
    | inl h0 => rw [h0]
    | inr hpos =>
      have hchild : i = 2 * ((i - 1) / 2) + 1 ∨ i = 2 * ((i - 1) / 2) + 2 := by omega
      have hparent : (i - 1) / 2 < i := by omega
      exact Nat.le_trans (ih _ hparent (Nat.lt_trans hparent hi))
        (hh _ i hchild hi)

theorem isHeap_dropLast (l : List Node) (hh : IsHeap l) : IsHeap l.dropLast := by
  intro i j hij hj
  have hj' : j < l.length := by
    rw [List.length_dropLast] at hj; omega
  have hi' : i < l.length := by omega
  have hgi : i < l.dropLast.length := by
    rw [List.length_dropLast] at hj ⊢; omega
  rw [heapVal_eq _ i hgi, heapVal_eq _ j hj, List.getElem_dropLast, List.getElem_dropLast]
  rw [← heapVal_eq _ i (by omega), ← heapVal_eq _ j (by omega)]
  exact hh i j hij (by omega)

theorem siftdown_isHeap (fuel : Nat) :
    ∀ (heap : List Node) (pos : Nat) (item : Node), pos ≤ fuel → pos < heap.length →
      (∀ i j, (j = 2 * i + 1 ∨ j = 2 * i + 2) → j < heap.length → j ≠ pos →
        heapVal (heap.set pos item) i ≤ heapVal (heap.set pos item) j) →
      (∀ j, (j = 2 * pos + 1 ∨ j = 2 * pos + 2) → j < heap.length → 0 < pos →
        heapVal (heap.set pos item) ((pos - 1) / 2) ≤ heapVal (heap.set pos item) j) →
      IsHeap (siftdown fuel heap 0 pos item) := by
  induction fuel with
  | zero =>
    intro heap pos item hfuel hpos hP1 _
    have h0 : pos = 0 := by omega
    subst h0
    rw [siftdown]
    intro i j hij hj
    rw [List.length_set] at hj
    exact hP1 i j hij hj (by omega)
  | succ fuel ih =>
    intro heap pos item hfuel hpos hP1 hP2
    rw [siftdown]
    by_cases hlt : 0 < pos
    · rw [if_pos hlt]
      set pp := (pos - 1) / 2 with hppdef
      set parent := heap.getD pp default with hparentdef
      have hpplt : pp < pos := by omega
      have hpplen : pp < heap.length := by omega
      by_cases hcmp : item.data < parent.data
      · rw [if_pos hcmp]
        -- the conceptual array after the move: positions pos and pp swapped
        have hswapval : ∀ k, k ≠ pos → k ≠ pp →
            heapVal ((heap.set pos parent).set pp item) k = heapVal (heap.set pos item) k := by
          intro k hk1 hk2
          rw [heapVal_set_ne _ pp k item (fun h => hk2 h.symm),
            heapVal_set_ne _ pos k parent (fun h => hk1 h.symm),
            heapVal_set_ne _ pos k item (fun h => hk1 h.symm)]
        have hval_pos : heapVal ((heap.set pos parent).set pp item) pos = parent.data := by
          rw [heapVal_set_ne _ pp pos item (by omega), heapVal_set_self _ _ _ hpos]
        have hval_pp : heapVal ((heap.set pos parent).set pp item) pp = item.data := by
          rw [heapVal_set_self]
          rw [List.length_set]
          exact hpplen
        have hA_pp : heapVal (heap.set pos item) pp = parent.data := by
          rw [heapVal_set_ne _ pos pp item (by omega), hparentdef, heapVal]
        have hA_pos : heapVal (heap.set pos item) pos = item.data :=
          heapVal_set_self _ _ _ hpos
        apply ih (heap.set pos parent) pp item (by omega)
          (by rw [List.length_set]; exact hpplen)
        · -- P1 for the new configuration
          intro i j hij hj hjpp
          rw [List.length_set] at hj
          by_cases hjpos : j = pos
          · subst hjpos
            have hip : i = pp := by omega
            subst hip
            rw [hval_pos, hval_pp]
            exact Nat.le_of_lt hcmp
          · by_cases hipp : i = pp
            · subst hipp
              rw [hval_pp, hswapval j hjpos hjpp]
              -- j is the sibling of pos under pp: item < parent = A pp ≤ A j
              refine Nat.le_trans (Nat.le_of_lt hcmp) ?_
              rw [← hA_pp]
              exact hP1 pp j hij hj hjpos
            · by_cases hipos : i = pos
              · subst hipos
                rw [hval_pos, hswapval j hjpos hjpp, ← hA_pp]
                exact hP2 j hij hj hlt
              · rw [hswapval i hipos hipp, hswapval j hjpos hjpp]
                exact hP1 i j hij hj hjpos
        · -- P2 for the new configuration: children of pp against pp's parent
          intro j hij hj hpppos
          rw [List.length_set] at hj
          set gp := (pp - 1) / 2 with hgpdef
          have hgplt : gp < pp := by omega
          have hchild_pp : pp = 2 * gp + 1 ∨ pp = 2 * gp + 2 := by omega
          have hgp_ne_pos : gp ≠ pos := by omega
          have hgp_ne_pp : gp ≠ pp := by omega
          have hgpval : heapVal ((heap.set pos parent).set pp item) gp
              = heapVal (heap.set pos item) gp := hswapval gp hgp_ne_pos hgp_ne_pp
          have hgp_le_pp : heapVal (heap.set pos item) gp ≤ parent.data := by
            rw [← hA_pp]
            exact hP1 gp pp hchild_pp (by omega) (by omega)
          by_cases hjpos : j = pos
          · subst hjpos
            rw [hgpval, hval_pos]
            exact hgp_le_pp
          · have hjpp : j ≠ pp := by omega
            rw [hgpval, hswapval j hjpos hjpp]
            refine Nat.le_trans hgp_le_pp ?_
            rw [← hA_pp]
            exact hP1 pp j hij hj hjpos
      · rw [if_neg hcmp]
        intro i j hij hj
        rw [List.length_set] at hj
        by_cases hjpos : j = pos
        · have hip : i = pp := by omega
          rw [hip, hjpos]
          rw [heapVal_set_self _ _ _ hpos, heapVal_set_ne _ pos pp item (by omega)]
          rw [hparentdef] at hcmp
          rw [heapVal]
          omega
        · exact hP1 i j hij hj hjpos
    · rw [if_neg hlt]
      intro i j hij hj
      rw [List.length_set] at hj
      exact hP1 i j hij hj (by omega)

theorem siftup_isHeap (fuel : Nat) :
    ∀ (heap : List Node) (pos : Nat) (item : Node),
      heap.length ≤ fuel + pos → pos < heap.length →
      (∀ i j, (j = 2 * i + 1 ∨ j = 2 * i + 2) → j < heap.length → i ≠ pos → j ≠ pos →
        heapVal heap i ≤ heapVal heap j) →
      (∀ j, (j = 2 * pos + 1 ∨ j = 2 * pos + 2) → j < heap.length → 0 < pos →
        heapVal heap ((pos - 1) / 2) ≤ heapVal heap j) →
      IsHeap (siftup fuel heap 0 pos item) := by
  induction fuel with
  | zero => intro heap pos item hfuel hpos _ _; omega
  | succ fuel ih =>
    intro heap pos item hfuel hpos hQ1 hQ2
    simp only [siftup]
    split
    next hchild =>
      set cp := if 2 * pos + 1 + 1 < heap.length ∧
          ¬ ((heap.getD (2 * pos + 1) default).data
              < (heap.getD (2 * pos + 1 + 1) default).data) then
          2 * pos + 1 + 1
        else 2 * pos + 1 with hcp
      have hcprange : cp = 2 * pos + 1 ∨ cp = 2 * pos + 2 := by
        rw [hcp]; split
        · right; rfl
        · left; rfl
      have hcplt : cp < heap.length := by
        rw [hcp]; split
        next hcond => exact hcond.1
        next => exact hchild
      have hposcp : pos < cp := by omega
      have hkey : ∀ j, (j = 2 * pos + 1 ∨ j = 2 * pos + 2) → j < heap.length →
          heapVal heap cp ≤ heapVal heap j := by
        intro j hj hjlen
        by_cases hjcp : j = cp
        · rw [hjcp]
        · rw [hcp]
          rw [hcp] at hjcp
          split
          next hcond =>
            have hj1 : j = 2 * pos + 1 := by
              split at hjcp <;> omega
            rw [hj1, heapVal, heapVal]
            omega
          next hcond =>
            rw [not_and_or, not_not] at hcond
            have hj2 : j = 2 * pos + 1 + 1 := by
              split at hjcp <;> omega
            rcases hcond with hc1 | hc1
            · omega
            · rw [hj2, heapVal, heapVal]
              omega
      have hswap : ∀ k, k ≠ pos →
          heapVal (heap.set pos (heap.getD cp default)) k = heapVal heap k := by
        intro k hk
        exact heapVal_set_ne heap pos k _ (fun h => hk h.symm)
      have hposval : heapVal (heap.set pos (heap.getD cp default)) pos
          = heapVal heap cp := by
        rw [heapVal_set_self _ _ _ hpos, heapVal]
      apply ih (heap.set pos (heap.getD cp default)) cp item
        (by rw [List.length_set]; omega) (by rw [List.length_set]; exact hcplt)
      · intro i j hij hjlen hicp hjcp
        rw [List.length_set] at hjlen
        by_cases hjpos : j = pos
        · subst hjpos
          have hipar : i = (j - 1) / 2 := by omega
          have hine : i ≠ j := by omega
          rw [hswap i hine, hposval, hipar]
          exact hQ2 cp hcprange hcplt (by omega)
        · rw [hswap j hjpos]
          by_cases hipos : i = pos
          · subst hipos
            rw [hposval]
            exact hkey j hij hjlen
          · rw [hswap i hipos]
            exact hQ1 i j hij hjlen hipos hjpos
      · intro j hij hjlen hcppos
        rw [List.length_set] at hjlen
        have hpar : (cp - 1) / 2 = pos := by omega
        have hjne_pos : j ≠ pos := by omega
        have hjne_cp : j ≠ cp := by omega
        rw [hpar, hposval, hswap j hjne_pos]
        exact hQ1 cp j hij hjlen (by omega) hjne_pos
    next hchild =>
      apply siftdown_isHeap pos (heap.set pos item) pos item (Nat.le_refl _)
        (by rw [List.length_set]; exact hpos)
      · intro i j hij hjlen hjpos
        rw [List.length_set] at hjlen
        rw [List.set_set]
        by_cases hipos : i = pos
        · subst hipos
          omega
        · rw [heapVal_set_ne _ pos i item (fun h => hipos h.symm),
            heapVal_set_ne _ pos j item (fun h => hjpos h.symm)]
          exact hQ1 i j hij hjlen hipos hjpos
      · intro j hij hjlen _
        rw [List.length_set] at hjlen
        omega

theorem set_append_last (l : List Node) (a : Node) :
    (l ++ [a]).set l.length a = l ++ [a] := by
  apply List.ext_getElem (by simp)
  intro i h1 h2
  by_cases hi : l.length = i
  · subst hi; simp [List.getElem_set]
  · simp [List.getElem_set, hi]

theorem heapVal_append_lt (l l2 : List Node) (k : Nat) (h : k < l.length) :
    heapVal (l ++ l2) k = heapVal l k := by
  rw [heapVal, heapVal, List.getD_eq_getElem _ _ (by simp; omega),
    List.getD_eq_getElem _ _ h, List.getElem_append_left]

theorem heappush_isHeap (heap : List Node) (item : Node) (hh : IsHeap heap) :
    IsHeap (heappush heap item) := by
  rw [heappush]
  apply siftdown_isHeap heap.length (heap ++ [item]) heap.length item (Nat.le_refl _)
    (by simp)
  · intro i j hij hjlen hjpos
    rw [List.length_append, List.length_singleton] at hjlen
    have hjlt : j < heap.length := by omega
    have hilt : i < heap.length := by omega
    rw [set_append_last, heapVal_append_lt _ _ i hilt, heapVal_append_lt _ _ j hjlt]
    exact hh i j hij hjlt
  · intro j hij hjlen _
    rw [List.length_append, List.length_singleton] at hjlen
    omega

theorem isHeap_nil : IsHeap [] := by
  intro i j _ hj
  simp at hj

theorem heappop_isHeap (heap : List Node) (hh : IsHeap heap) (r : Node) (h' : List Node)
    (hp : heappop heap = some (r, h')) : IsHeap h' := by
  unfold heappop at hp
  cases hl : heap.getLast? with
  | none => rw [hl] at hp; cases hp
  | some lastelt =>
    rw [hl] at hp
    dsimp only at hp
    cases hrest : heap.dropLast with
    | nil =>
      rw [hrest] at hp
      simp only [List.isEmpty_nil, if_true] at hp
      obtain ⟨_, hh'⟩ := Prod.mk.injEq .. ▸ Option.some_inj.mp hp
      rw [← hh']
      exact isHeap_nil
    | cons x xs =>
      rw [hrest] at hp
      rw [if_neg (by simp)] at hp
      have hpair := Option.some_inj.mp hp
      rw [Prod.mk.injEq] at hpair
      rw [← hpair.2]
      have hdl : IsHeap (x :: xs) := by
        rw [← hrest]
        exact isHeap_dropLast heap hh
      apply siftup_isHeap (x :: xs).length ((x :: xs).set 0 lastelt) 0 lastelt
        (by rw [List.length_set]; omega) (by rw [List.length_set]; simp)
      · intro i j hij hjlen hipos hjpos
        rw [List.length_set] at hjlen
        rw [heapVal_set_ne _ 0 i lastelt (fun h => hipos h.symm),
          heapVal_set_ne _ 0 j lastelt (fun h => hjpos h.symm)]
        exact hdl i j hij hjlen
      · intro j _ _ h0
        omega

theorem heappop_min (heap : List Node) (hh : IsHeap heap) (r : Node) (h' : List Node)
    (hp : heappop heap = some (r, h')) : ∀ t ∈ heap, r.data ≤ t.data := by
  have hroot : r.data = heapVal heap 0 := by
    unfold heappop at hp
    cases hl : heap.getLast? with
    | none => rw [hl] at hp; cases hp
    | some lastelt =>
      rw [hl] at hp
      dsimp only at hp
      have hne : heap ≠ [] := by rintro rfl; simp at hl
      have hlast : heap.getLast hne = lastelt := by
        rw [List.getLast?_eq_getLast _ hne] at hl
        exact Option.some_inj.mp hl
      have heq : heap.dropLast ++ [lastelt] = heap := by
        rw [← hlast]; exact List.dropLast_concat_getLast hne
      cases hrest : heap.dropLast with
      | nil =>
        rw [hrest] at hp heq
        simp only [List.nil_append] at heq
        simp only [List.isEmpty_nil, if_true] at hp
        have hpair := Option.some_inj.mp hp
        rw [Prod.mk.injEq] at hpair
        rw [← hpair.1, ← heq, heapVal, List.getD_cons_zero]
      | cons x xs =>
        rw [hrest] at hp heq
        rw [if_neg (by simp)] at hp
        have hpair := Option.some_inj.mp hp
        rw [Prod.mk.injEq] at hpair
        rw [← hpair.1, List.getD_cons_zero, ← heq, heapVal, List.cons_append,
          List.getD_cons_zero]
  intro t ht
  obtain ⟨i, hi, hti⟩ := List.mem_iff_getElem.mp ht
  rw [hroot, ← hti, ← heapVal_eq _ i hi]
  exact isHeap_root_min heap hh i hi

theorem fold_push_isHeap (ps : List (Char × Nat)) :
    ∀ init : List Node, IsHeap init →
      IsHeap (ps.foldl (fun pq p => heappush pq (.leaf p.2 p.1)) init) := by
  induction ps with
  | nil => intro init h; exact h
  | cons p ps ih =>
    intro init h
    rw [List.foldl_cons]
    exact ih _ (heappush_isHeap init _ h)

/-! ### The greedy merge total -/

theorem natExtractMin_eq_none (ws : List Nat) : natExtractMin ws = none ↔ ws = [] := by
  cases ws with
  | nil => simp [natExtractMin]
  | cons a ws =>
    rw [natExtractMin]
    constructor
    · intro h
      cases hrec : natExtractMin ws with
      | none => rw [hrec] at h; cases h
      | some p =>
        rw [hrec] at h
        dsimp only at h
        split at h <;> cases h
    · intro h; cases h

theorem natExtractMin_spec : ∀ ws : List Nat, ws ≠ [] →
    ∃ x rest, natExtractMin ws = some (x, rest) ∧ ws.Perm (x :: rest) ∧
      ∀ y ∈ ws, x ≤ y := by
  intro ws
  induction ws with
  | nil => intro h; exact absurd rfl h
  | cons a ws ih =>
    intro _
    rw [natExtractMin]
    cases hrec : natExtractMin ws with
    | none =>
      have hwsnil : ws = [] := (natExtractMin_eq_none ws).mp hrec
      subst hwsnil
      exact ⟨a, [], rfl, List.Perm.refl _, by simp⟩
    | some p =>
      obtain ⟨m, rest'⟩ := p
      have hwsne : ws ≠ [] := by
        intro h; subst h; simp [natExtractMin] at hrec
      obtain ⟨x, rest, hx, hperm, hmin⟩ := ih hwsne
      rw [hrec] at hx
      have hpair := Option.some_inj.mp hx
      rw [Prod.mk.injEq] at hpair
      obtain ⟨hm, hr⟩ := hpair
      subst hm
      subst hr
      dsimp only
      by_cases hcmp : a ≤ m
      · rw [if_pos hcmp]
        refine ⟨a, ws, rfl, List.Perm.refl _, ?_⟩
        intro y hy
        rcases List.mem_cons.mp hy with h | h
        · omega
        · exact Nat.le_trans hcmp (hmin y h)
      · rw [if_neg hcmp]
        refine ⟨m, a :: rest', rfl, ?_, ?_⟩
        · exact (List.Perm.cons a hperm).trans (List.Perm.swap m a rest')
        · intro y hy
          rcases List.mem_cons.mp hy with h | h
          · omega
          · exact hmin y h

theorem mergeTotal_perm (fuel : Nat) :
    ∀ ws ws' : List Nat, ws.Perm ws' → mergeTotal fuel ws = mergeTotal fuel ws' := by
  induction fuel with
  | zero => intro ws ws' _; rfl
  | succ fuel ih =>
    intro ws ws' hperm
    by_cases hnil : ws = []
    · subst hnil
      have : ws' = [] := hperm.symm.eq_nil
      subst this
      rfl
    · have hnil' : ws' ≠ [] := fun h => hnil (by simpa using (h ▸ hperm).eq_nil)
      obtain ⟨x, rest, hx, hp1, hmin1⟩ := natExtractMin_spec ws hnil
      obtain ⟨x', rest', hx', hp1', hmin1'⟩ := natExtractMin_spec ws' hnil'
      have hxx : x = x' := by
        have h1 : x ≤ x' := hmin1 x' (hperm.mem_iff.mpr (hp1'.mem_iff.mpr (by simp)))
        have h2 : x' ≤ x := hmin1' x (hperm.mem_iff.mp (hp1.mem_iff.mpr (by simp)))
        omega
      subst hxx
      have hrests : rest.Perm rest' :=
        List.Perm.cons_inv (hp1.symm.trans (hperm.trans hp1'))
      rw [mergeTotal, mergeTotal, hx, hx']
      dsimp only
      by_cases hrnil : rest = []
      · subst hrnil
        have : rest' = [] := hrests.symm.eq_nil
        subst this
        rfl
      · have hrnil' : rest' ≠ [] := fun h => hrnil (by simpa using (h ▸ hrests).eq_nil)
        obtain ⟨y, ws2, hy, hp2, hmin2⟩ := natExtractMin_spec rest hrnil
        obtain ⟨y', ws2', hy', hp2', hmin2'⟩ := natExtractMin_spec rest' hrnil'
        have hyy : y = y' := by
          have h1 : y ≤ y' := hmin2 y' (hrests.mem_iff.mpr (hp2'.mem_iff.mpr (by simp)))
          have h2 : y' ≤ y := hmin2' y (hrests.mem_iff.mp (hp2.mem_iff.mpr (by simp)))
          omega
        subst hyy
        have hws2 : ws2.Perm ws2' :=
          List.Perm.cons_inv (hp2.symm.trans (hrests.trans hp2'))
        rw [hy, hy']
        dsimp only
        rw [ih ((x + y) :: ws2) ((x + y) :: ws2') (List.Perm.cons _ hws2)]

theorem mergeTotal_min_step (fuel : Nat) (ws W' W'' : List Nat) (x y : Nat)
    (hperm1 : ws.Perm (x :: W')) (hxmin : ∀ z ∈ ws, x ≤ z)
    (hperm2 : W'.Perm (y :: W'')) (hymin : ∀ z ∈ W', y ≤ z) :
    mergeTotal (fuel + 1) ws = (x + y) + mergeTotal fuel ((x + y) :: W'') := by
  have hwsne : ws ≠ [] := by
    intro h
    rw [h] at hperm1
    exact List.noConfusion hperm1.symm.eq_nil
  obtain ⟨x₀, rest₀, hx₀, hp₀, hmin₀⟩ := natExtractMin_spec ws hwsne
  have hxx : x = x₀ := by
    have h1 : x₀ ≤ x := hmin₀ x (hperm1.mem_iff.mpr (by simp))
    have h2 : x ≤ x₀ := hxmin x₀ (hp₀.mem_iff.mpr (by simp))
    omega
  subst hxx
  have hrest₀ : rest₀.Perm (y :: W'') := by
    have := List.Perm.cons_inv (hp₀.symm.trans hperm1)
    exact this.trans hperm2
  have hrest₀min : ∀ z ∈ rest₀, y ≤ z := by
    intro z hz
    have hzW' : z ∈ W' := (List.Perm.cons_inv (hp₀.symm.trans hperm1)).mem_iff.mp hz
    exact hymin z hzW'
  have hrne : rest₀ ≠ [] := by
    intro h
    rw [h] at hrest₀
    exact List.noConfusion hrest₀.symm.eq_nil
  obtain ⟨y₀, ws2, hy₀, hp₂, hmin₂⟩ := natExtractMin_spec rest₀ hrne
  have hyy : y = y₀ := by
    have h1 : y₀ ≤ y := hmin₂ y (hrest₀.mem_iff.mpr (by simp))
    have h2 : y ≤ y₀ := hrest₀min y₀ (hp₂.mem_iff.mpr (by simp))
    omega
  subst hyy
  have hws2 : ws2.Perm W'' :=
    List.Perm.cons_inv (hp₂.symm.trans hrest₀)
  rw [mergeTotal, hx₀]
  dsimp only
  rw [hy₀]
  dsimp only
  rw [mergeTotal_perm fuel ((x + y) :: ws2) ((x + y) :: W'') (List.Perm.cons _ hws2)]

theorem mergeTotal_singleton (fuel : Nat) (w : Nat) : mergeTotal fuel [w] = 0 := by
  cases fuel with
  | zero => rfl
  | succ fuel => simp [mergeTotal, natExtractMin]

theorem buildLoop_cost (fuel : Nat) :
    ∀ pq : List Node, IsHeap pq → (∀ t ∈ pq, Node.data t = weightSum t) →
      1 ≤ pq.length → pq.length ≤ fuel + 1 →
      ∃ root, buildLoop fuel pq = [root] ∧
        treeCost root = (pq.map treeCost).sum + mergeTotal fuel (pq.map Node.data) := by
  induction fuel with
  | zero =>
    intro pq _ _ h1 h2
    obtain ⟨root, rfl⟩ := List.length_eq_one.mp (Nat.le_antisymm h2 h1)
    refine ⟨root, rfl, ?_⟩
    simp [mergeTotal]
  | succ fuel ih =>
    intro pq hheap hdata h1 h2
    by_cases hlen : 2 ≤ pq.length
    · cases hp1 : heappop pq with
      | none => rw [heappop_eq_none_iff] at hp1; rw [hp1] at hlen; simp at hlen
      | some lr =>
        obtain ⟨l, pq1⟩ := lr
        have hlen1 : pq.length = pq1.length + 1 := heappop_length pq l pq1 hp1
        cases hp2 : heappop pq1 with
        | none =>
          rw [heappop_eq_none_iff] at hp2; rw [hp2] at hlen1; simp at hlen1; omega
        | some rr =>
          obtain ⟨r, pq2⟩ := rr
          have hlen2 : pq1.length = pq2.length + 1 := heappop_length pq1 r pq2 hp2
          have hstep : buildLoop (fuel + 1) pq =
              buildLoop fuel (heappush pq2 (.node (l.data + r.data) l r)) := by
            simp only [buildLoop, if_pos hlen, hp1, hp2]
          have hpermq : pq.Perm (l :: pq1) := heappop_perm pq l pq1 hp1
          have hpermq1 : pq1.Perm (r :: pq2) := heappop_perm pq1 r pq2 hp2
          have hheap1 : IsHeap pq1 := heappop_isHeap pq hheap l pq1 hp1
          have hheap2 : IsHeap pq2 := heappop_isHeap pq1 hheap1 r pq2 hp2
          have hminl : ∀ t ∈ pq, l.data ≤ t.data := heappop_min pq hheap l pq1 hp1
          have hminr : ∀ t ∈ pq1, r.data ≤ t.data := heappop_min pq1 hheap1 r pq2 hp2
          have hlmem : l ∈ pq := hpermq.mem_iff.mpr (by simp)
          have hrmem : r ∈ pq := by
            refine hpermq.mem_iff.mpr (List.mem_cons.mpr (Or.inr ?_))
            exact hpermq1.mem_iff.mpr (by simp)
          set merged := Node.node (l.data + r.data) l r with hmerged
          have hmergedata : merged.data = weightSum merged := by
            rw [hmerged]
            show l.data + r.data = weightSum l + weightSum r
            rw [← hdata l hlmem, ← hdata r hrmem]
          have hpermq' : (heappush pq2 merged).Perm (merged :: pq2) := heappush_perm _ _
          have hheap' : IsHeap (heappush pq2 merged) := heappush_isHeap pq2 merged hheap2
          have hdata' : ∀ t ∈ heappush pq2 merged, Node.data t = weightSum t := by
            intro t ht
            rcases List.mem_cons.mp (hpermq'.mem_iff.mp ht) with h | h
            · rw [h]; exact hmergedata
            · refine hdata t (hpermq.mem_iff.mpr (List.mem_cons.mpr (Or.inr ?_)))
              exact hpermq1.mem_iff.mpr (List.mem_cons.mpr (Or.inr h))
          have hlen' : (heappush pq2 merged).length = pq2.length + 1 := heappush_length _ _
          obtain ⟨root, hroot, hcost⟩ := ih (heappush pq2 merged) hheap' hdata'
            (by omega) (by omega)
          refine ⟨root, by rw [hstep]; exact hroot, ?_⟩
          rw [hcost]
          -- cost sums over permutations
          have hsum' : ((heappush pq2 merged).map treeCost).sum
              = treeCost merged + (pq2.map treeCost).sum := by
            rw [(hpermq'.map treeCost).sum_eq, List.map_cons, List.sum_cons]
          have hsumq : (pq.map treeCost).sum
              = treeCost l + (treeCost r + (pq2.map treeCost).sum) := by
            rw [(hpermq.map treeCost).sum_eq, List.map_cons, List.sum_cons,
              (hpermq1.map treeCost).sum_eq, List.map_cons, List.sum_cons]
          have hcost_merged : treeCost merged
              = treeCost l + treeCost r + (l.data + r.data) := by
            rw [hmerged]
            show treeCost l + treeCost r + (weightSum l + weightSum r) = _
            rw [← hdata l hlmem, ← hdata r hrmem]
          -- merge totals over permutations
          have hmt : mergeTotal (fuel + 1) (pq.map Node.data)
              = (l.data + r.data) + mergeTotal fuel ((l.data + r.data) :: pq2.map Node.data) := by
            apply mergeTotal_min_step fuel _ (pq1.map Node.data) (pq2.map Node.data)
            · exact (hpermq.map Node.data)
            · intro z hz
              obtain ⟨t, ht, rfl⟩ := List.mem_map.mp hz
              exact hminl t ht
            · exact (hpermq1.map Node.data)
            · intro z hz
              obtain ⟨t, ht, rfl⟩ := List.mem_map.mp hz
              exact hminr t ht
          have hmt' : mergeTotal fuel ((heappush pq2 merged).map Node.data)
              = mergeTotal fuel ((l.data + r.data) :: pq2.map Node.data) := by
            apply mergeTotal_perm
            refine (hpermq'.map Node.data).trans ?_
            rw [List.map_cons]
            exact List.Perm.refl _
          rw [hsum', hsumq, hcost_merged, hmt, hmt']
          omega
    · have hone : pq.length = 1 := by omega
      obtain ⟨root, rfl⟩ := List.length_eq_one.mp hone
      refine ⟨root, by simp [buildLoop], ?_⟩
      simp [mergeTotal_singleton]

/-! ### Weighted leaf paths: the cost of a tree position by position -/

theorem wpaths_mem_iff (t : Node) :
    ∀ (curr p : List Bool) (w : Nat),
      (w, p) ∈ wpathsOf t curr ↔
        ∃ q, p = curr ++ q ∧ ∃ c, subtreeAt t q = some (Node.leaf w c) := by
  induction t with
  | leaf d c' =>
    intro curr p w
    constructor
    · intro h
      rw [wpathsOf, List.mem_singleton, Prod.mk.injEq] at h
      exact ⟨[], by simp [h.2], c', by simp [subtreeAt, h.1]⟩
    · rintro ⟨q, hp, c, hsub⟩
      cases q with
      | nil =>
        rw [subtreeAt, Option.some_inj] at hsub
        have hw : d = w := by cases hsub; rfl
        rw [wpathsOf, List.mem_singleton, Prod.mk.injEq]
        exact ⟨hw.symm, by simp [hp]⟩
      | cons b q' => rw [subtreeAt] at hsub; cases hsub
  | node d l r ihl ihr =>
    intro curr p w
    rw [wpathsOf, List.mem_append, ihl, ihr]
    constructor
    · rintro (⟨q, hp, c, hsub⟩ | ⟨q, hp, c, hsub⟩)
      · exact ⟨false :: q, by simp [hp], c, by simpa [subtreeAt] using hsub⟩
      · exact ⟨true :: q, by simp [hp], c, by simpa [subtreeAt] using hsub⟩
    · rintro ⟨q, hp, c, hsub⟩
      cases q with
      | nil => rw [subtreeAt] at hsub; cases hsub
      | cons b q' =>
        cases b
        · exact Or.inl ⟨q', by simpa using hp, c, by simpa [subtreeAt] using hsub⟩
        · exact Or.inr ⟨q', by simpa using hp, c, by simpa [subtreeAt] using hsub⟩

theorem wpaths_map_fst (t : Node) : ∀ curr : List Bool,
    (wpathsOf t curr).map (fun p => p.1) = leafDatas t := by
  induction t with
  | leaf d c => intro curr; simp [wpathsOf, leafDatas, Node.leavesList, Node.data]
  | node d l r ihl ihr =>
    intro curr
    rw [wpathsOf, List.map_append, ihl, ihr]
    simp [leafDatas, Node.leavesList]

theorem wpaths_nodup_paths (t : Node) :
    ∀ curr, ((wpathsOf t curr).map (fun p => p.2)).Nodup := by
  induction t with
  | leaf d c => intro curr; simp [wpathsOf]
  | node d l r ihl ihr =>
    intro curr
    rw [wpathsOf, List.map_append, List.nodup_append]
    refine ⟨ihl _, ihr _, ?_⟩
    intro p hpl hpr
    obtain ⟨x, hx, hxp⟩ := List.mem_map.mp hpl
    obtain ⟨y, hy, hyp⟩ := List.mem_map.mp hpr
    obtain ⟨wx, px⟩ := x
    obtain ⟨wy, py⟩ := y
    obtain ⟨qx, hqx, cx, hsx⟩ := (wpaths_mem_iff l _ _ _).mp hx
    obtain ⟨qy, hqy, cy, hsy⟩ := (wpaths_mem_iff r _ _ _).mp hy
    dsimp at hxp hyp
    have : px = py := hxp.trans hyp.symm
    rw [hqx, hqy] at this
    have hcat : curr ++ (false :: qx) = curr ++ (true :: qy) := by
      rw [List.append_assoc, List.append_assoc] at this
      exact this
    have := List.append_cancel_left hcat
    cases this

theorem wpaths_length (t : Node) :
    ∀ curr, (wpathsOf t curr).length = t.leavesList.length := by
  induction t with
  | leaf d c => intro curr; rfl
  | node d l r ihl ihr =>
    intro curr
    simp only [wpathsOf, Node.leavesList, List.length_append, ihl, ihr]

theorem weightSum_eq (t : Node) : weightSum t = (leafDatas t).sum := by
  induction t with
  | leaf d c => simp [weightSum, leafDatas, Node.leavesList, Node.data]
  | node d l r ihl ihr =>
    simp only [weightSum, leafDatas, Node.leavesList, List.map_append, List.sum_append]
    rw [leafDatas] at ihl ihr
    omega

theorem wpaths_cost (t : Node) :
    ∀ curr, ((wpathsOf t curr).map (fun p => p.1 * p.2.length)).sum
      = treeCost t + curr.length * weightSum t := by
  induction t with
  | leaf d c =>
    intro curr
    simp [wpathsOf, treeCost, weightSum]
    ring
  | node d l r ihl ihr =>
    intro curr
    simp only [wpathsOf, List.map_append, List.sum_append, ihl, ihr, treeCost,
      List.length_append, List.length_singleton, weightSum]
    ring


theorem depth_le_maxDepth (t : Node) :
    ∀ curr w p, (w, p) ∈ wpathsOf t curr → p.length ≤ curr.length + maxDepth t := by
  induction t with
  | leaf d c =>
    intro curr w p h
    rw [wpathsOf, List.mem_singleton, Prod.mk.injEq] at h
    rw [h.2, maxDepth]
    omega
  | node d l r ihl ihr =>
    intro curr w p h
    rw [wpathsOf, List.mem_append] at h
    rw [maxDepth]
    rcases h with h | h
    · have := ihl _ _ _ h
      rw [List.length_append, List.length_singleton] at this
      omega
    · have := ihr _ _ _ h
      rw [List.length_append, List.length_singleton] at this
      omega

theorem exists_deepest_pair :
    ∀ (t : Node) (d : Nat) (l r : Node), t = Node.node d l r →
      ∃ (P : List Bool) (dd wa : Nat) (ca : Char) (wb : Nat) (cb : Char),
        subtreeAt t P = some (Node.node dd (Node.leaf wa ca) (Node.leaf wb cb)) ∧
        P.length + 1 = maxDepth t := by
  intro t
  induction t with
  | leaf _ _ => intro d l r h; cases h
  | node d0 l0 r0 ihl ihr =>
    intro d l r h
    clear h
    have hstepT : ∀ P, subtreeAt (Node.node d0 l0 r0) (true :: P) = subtreeAt r0 P := by
      intro P; rw [subtreeAt]; simp
    have hstepF : ∀ P, subtreeAt (Node.node d0 l0 r0) (false :: P) = subtreeAt l0 P := by
      intro P; rw [subtreeAt]; simp
    by_cases hcmp : maxDepth r0 ≤ maxDepth l0
    · cases hl : l0 with
      | leaf wa ca =>
        cases hr : r0 with
        | leaf wb cb =>
          refine ⟨[], d0, wa, ca, wb, cb, by rw [subtreeAt], ?_⟩
          simp [maxDepth]
        | node dr lr rr =>
          exfalso
          rw [hl, hr, maxDepth, maxDepth] at hcmp
          omega
      | node dl ll rl =>
        obtain ⟨P, dd, wa', ca', wb', cb', hsub, hdep⟩ := ihl dl ll rl hl
        rw [← hl]
        refine ⟨false :: P, dd, wa', ca', wb', cb', ?_, ?_⟩
        · rw [hstepF]; exact hsub
        · rw [maxDepth]
          simp only [List.length_cons]
          omega
    · cases hr : r0 with
      | leaf wb cb =>
        exfalso
        rw [hr, maxDepth] at hcmp
        omega
      | node dr lr rr =>
        obtain ⟨P, dd, wa', ca', wb', cb', hsub, hdep⟩ := ihr dr lr rr hr
        rw [← hr]
        refine ⟨true :: P, dd, wa', ca', wb', cb', ?_, ?_⟩
        · rw [hstepT]; exact hsub
        · rw [maxDepth]
          simp only [List.length_cons]
          omega

theorem wpaths_replace :
    ∀ (P : List Bool) (t u : Node), subtreeAt t P = some u →
      ∀ curr, ∃ rest : List (Nat × List Bool),
        (wpathsOf t curr).Perm (wpathsOf u (curr ++ P) ++ rest) ∧
        ∀ s : Node, (wpathsOf (replaceAt t P s) curr).Perm
          (wpathsOf s (curr ++ P) ++ rest) := by
  intro P
  induction P with
  | nil =>
    intro t u hsub curr
    rw [subtreeAt, Option.some_inj] at hsub
    subst hsub
    refine ⟨[], ?_, ?_⟩
    · rw [List.append_nil, List.append_nil]
    · intro s
      rw [replaceAt, List.append_nil, List.append_nil]
  | cons b P' ih =>
    intro t u hsub curr
    cases t with
    | leaf d c => rw [subtreeAt] at hsub; cases hsub
    | node d l r =>
      rw [subtreeAt] at hsub
      have hpreF : curr ++ [false] ++ P' = curr ++ (false :: P') := by
        rw [List.append_assoc]; rfl
      have hpreT : curr ++ [true] ++ P' = curr ++ (true :: P') := by
        rw [List.append_assoc]; rfl
      cases b
      · simp only [if_neg (Bool.false_ne_true)] at hsub
        obtain ⟨rest', h1, h2⟩ := ih l u hsub (curr ++ [false])
        refine ⟨rest' ++ wpathsOf r (curr ++ [true]), ?_, ?_⟩
        · rw [wpathsOf, ← hpreF]
          refine (h1.append_right _).trans ?_
          rw [List.append_assoc]
        · intro s
          have hrep : replaceAt (Node.node d l r) (false :: P') s
              = Node.node d (replaceAt l P' s) r := by
            rw [replaceAt]; simp
          rw [hrep, wpathsOf, ← hpreF]
          refine ((h2 s).append_right _).trans ?_
          rw [List.append_assoc]
      · simp only [if_pos rfl] at hsub
        obtain ⟨rest', h1, h2⟩ := ih r u hsub (curr ++ [true])
        refine ⟨wpathsOf l (curr ++ [false]) ++ rest', ?_, ?_⟩
        · rw [wpathsOf, ← hpreT]
          refine (h1.append_left _).trans ?_
          rw [← List.append_assoc, ← List.append_assoc]
          exact List.perm_append_comm.append_right _
        · intro s
          have hrep : replaceAt (Node.node d l r) (true :: P') s
              = Node.node d l (replaceAt r P' s) := by
            rw [replaceAt]; simp
          rw [hrep, wpathsOf, ← hpreT]
          refine ((h2 s).append_left _).trans ?_
          rw [← List.append_assoc, ← List.append_assoc]
          exact List.perm_append_comm.append_right _

theorem subtreeAt_replaceAt_self :
    ∀ (P : List Bool) (t u s : Node), subtreeAt t P = some u →
      subtreeAt (replaceAt t P s) P = some s := by
  intro P
  induction P with
  | nil => intro t u s _; rw [replaceAt, subtreeAt]
  | cons b P' ih =>
    intro t u s hsub
    cases t with
    | leaf d c => rw [subtreeAt] at hsub; cases hsub
    | node d l r =>
      rw [subtreeAt] at hsub
      cases b
      · simp only [if_neg (Bool.false_ne_true)] at hsub
        have hrep : replaceAt (Node.node d l r) (false :: P') s
            = Node.node d (replaceAt l P' s) r := by
          rw [replaceAt]; simp
        rw [hrep, subtreeAt]
        simpa using ih l u s hsub
      · simp only [if_pos rfl] at hsub
        have hrep : replaceAt (Node.node d l r) (true :: P') s
            = Node.node d l (replaceAt r P' s) := by
          rw [replaceAt]; simp
        rw [hrep, subtreeAt]
        simpa using ih r u s hsub

theorem subtreeAt_replaceAt_off :
    ∀ (q p : List Bool) (t s : Node), ¬ p <+: q → ¬ q <+: p →
      subtreeAt (replaceAt t p s) q = subtreeAt t q := by
  intro q
  induction q with
  | nil => intro p t s _ hqp; exact absurd List.nil_prefix hqp
  | cons b q' ih =>
    intro p t s hpq hqp
    cases p with
    | nil => exact absurd List.nil_prefix hpq
    | cons b' p' =>
      cases t with
      | leaf d c => rw [replaceAt]
      | node d l r =>
        by_cases hb : b' = b
        · subst hb
          have hpq' : ¬ p' <+: q' := by
            intro h; exact hpq (List.cons_prefix_cons.mpr ⟨rfl, h⟩)
          have hqp' : ¬ q' <+: p' := by
            intro h; exact hqp (List.cons_prefix_cons.mpr ⟨rfl, h⟩)
          cases b'
          · have hrep : replaceAt (Node.node d l r) (false :: p') s
                = Node.node d (replaceAt l p' s) r := by
              rw [replaceAt]; simp
            rw [hrep, subtreeAt, subtreeAt]
            simpa using ih p' l s hpq' hqp'
          · have hrep : replaceAt (Node.node d l r) (true :: p') s
                = Node.node d l (replaceAt r p' s) := by
              rw [replaceAt]; simp
            rw [hrep, subtreeAt, subtreeAt]
            simpa using ih p' r s hpq' hqp'
        · cases b'
          · have hbt : b = true := by
              cases b
              · exact absurd rfl hb
              · rfl
            subst hbt
            have hrep : replaceAt (Node.node d l r) (false :: p') s
                = Node.node d (replaceAt l p' s) r := by
              rw [replaceAt]; simp
            rw [hrep, subtreeAt, subtreeAt]
            simp
          · have hbf : b = false := by
              cases b
              · rfl
              · exact absurd rfl hb
            subst hbf
            have hrep : replaceAt (Node.node d l r) (true :: p') s
                = Node.node d l (replaceAt r p' s) := by
              rw [replaceAt]; simp
            rw [hrep, subtreeAt, subtreeAt]
            simp

theorem leaf_paths_incomp (t : Node) (p q : List Bool) (w v : Nat) (cw cv : Char)
    (hp : subtreeAt t p = some (Node.leaf w cw))
    (hq : subtreeAt t q = some (Node.leaf v cv))
    (hne : p ≠ q) : ¬ p <+: q ∧ ¬ q <+: p := by
  constructor
  · intro hpre; exact hne (leaf_path_unique_of_pre t p q w v cw cv hp hq hpre)
  · intro hpre
    exact hne (leaf_path_unique_of_pre t q p v w cv cw hq hp hpre).symm

theorem moveMinToSlot (T : Node) (slot : List Bool) (w : Nat) (c : Char) (x : Nat)
    (px : List Bool)
    (hslot : subtreeAt T slot = some (Node.leaf w c))
    (hpx : (x, px) ∈ wpathsOf T [])
    (hxw : x ≤ w) (hlen : px.length ≤ slot.length) :
    ∃ (T' : Node) (M : List (Nat × List Bool)) (c' : Char),
      (wpathsOf T' []).Perm ((x, slot) :: M) ∧
      (x :: M.map (fun z => z.1)).Perm ((wpathsOf T []).map (fun z => z.1)) ∧
      ((wpathsOf T' []).map (fun z => z.2)).Perm ((wpathsOf T []).map (fun z => z.2)) ∧
      ((wpathsOf T' []).map (fun z => z.1 * z.2.length)).sum
        ≤ ((wpathsOf T []).map (fun z => z.1 * z.2.length)).sum ∧
      (∀ (q : List Bool) (u : Nat) (cu : Char),
        subtreeAt T q = some (Node.leaf u cu) → q ≠ slot → q ≠ px →
        subtreeAt T' q = some (Node.leaf u cu)) ∧
      subtreeAt T' slot = some (Node.leaf x c') := by
  obtain ⟨q₀, hq₀, cpx, hsubpx⟩ := (wpaths_mem_iff T [] px x).mp hpx
  rw [List.nil_append] at hq₀
  subst hq₀
  by_cases hps : px = slot
  · subst hps
    rw [hslot, Option.some_inj] at hsubpx
    injection hsubpx with hxw' hc'
    obtain ⟨R, hR1, _⟩ := wpaths_replace px T (Node.leaf w c) hslot []
    rw [List.nil_append, wpathsOf] at hR1
    refine ⟨T, R, c, ?_, ?_, List.Perm.refl _, Nat.le_refl _, ?_, ?_⟩
    · rw [← hxw']
      simpa using hR1
    · rw [← hxw']
      have := (hR1.map (fun z : Nat × List Bool => z.1)).symm
      simpa using this
    · intro q u cu h _ _; exact h
    · rw [hslot, hxw']
  · have hinc := leaf_paths_incomp T px slot x w cpx c hsubpx hslot hps
    obtain ⟨R₁, hA1, hA2⟩ := wpaths_replace px T (Node.leaf x cpx) hsubpx []
    rw [List.nil_append, wpathsOf] at hA1
    have hTa := hA2 (Node.leaf w cpx)
    rw [List.nil_append, wpathsOf] at hTa
    have hTaslot : subtreeAt (replaceAt T px (Node.leaf w cpx)) slot
        = some (Node.leaf w c) := by
      rw [subtreeAt_replaceAt_off slot px T (Node.leaf w cpx) hinc.1 hinc.2]
      exact hslot
    obtain ⟨R₂, hB1, hB2⟩ := wpaths_replace slot (replaceAt T px (Node.leaf w cpx))
      (Node.leaf w c) hTaslot []
    rw [List.nil_append, wpathsOf] at hB1
    have hT' := hB2 (Node.leaf x c)
    rw [List.nil_append, wpathsOf] at hT'
    have hlink : ((w, px) :: R₁).Perm ((w, slot) :: R₂) := hTa.symm.trans hB1
    have hfst : (R₁.map (fun z : Nat × List Bool => z.1)).Perm
        (R₂.map (fun z : Nat × List Bool => z.1)) := by
      have := hlink.map (fun z : Nat × List Bool => z.1)
      simp only [List.map_cons] at this
      exact this.cons_inv
    refine ⟨replaceAt (replaceAt T px (Node.leaf w cpx)) slot (Node.leaf x c),
      R₂, c, by simpa using hT', ?_, ?_, ?_, ?_, ?_⟩
    · have h1 := hA1.map (fun z : Nat × List Bool => z.1)
      simp only [List.map_cons, List.singleton_append] at h1 ⊢
      exact (hfst.symm.cons x).trans h1.symm
    · have h1 := hA1.map (fun z : Nat × List Bool => z.2)
      have h2 := hT'.map (fun z : Nat × List Bool => z.2)
      have h3 := hlink.map (fun z : Nat × List Bool => z.2)
      simp only [List.map_cons, List.singleton_append] at h1 h2 h3
      exact h2.trans (h3.symm.trans h1.symm)
    · have h1 := (hA1.map (fun z : Nat × List Bool => z.1 * z.2.length)).sum_eq
      have h2 := (hT'.map (fun z : Nat × List Bool => z.1 * z.2.length)).sum_eq
      have h3 := (hlink.map (fun z : Nat × List Bool => z.1 * z.2.length)).sum_eq
      simp only [List.map_cons, List.sum_cons, List.singleton_append] at h1 h2 h3
      have key := mul_add_mul_le_mul_add_mul hxw hlen
      omega
    · intro q u cu hqT hqs hqpx
      have hincq1 := leaf_paths_incomp T q px u x cu cpx hqT hsubpx hqpx
      have h1 : subtreeAt (replaceAt T px (Node.leaf w cpx)) q
          = some (Node.leaf u cu) := by
        rw [subtreeAt_replaceAt_off q px T (Node.leaf w cpx) hincq1.2 hincq1.1]
        exact hqT
      have hincq2 := leaf_paths_incomp T q slot u w cu c hqT hslot hqs
      rw [subtreeAt_replaceAt_off q slot (replaceAt T px (Node.leaf w cpx))
        (Node.leaf x c) hincq2.2 hincq2.1]
      exact h1
    · exact subtreeAt_replaceAt_self slot (replaceAt T px (Node.leaf w cpx))
        (Node.leaf w c) (Node.leaf x c) hTaslot

theorem mergeTotal_le_treeCost : ∀ (fuel : Nat) (T : Node) (ws : List Nat),
    ws.Perm (leafDatas T) → mergeTotal fuel ws ≤ treeCost T := by
  intro fuel
  induction fuel with
  | zero =>
    intro T ws _
    simp [mergeTotal]
  | succ fuel ih =>
    intro T ws hperm
    match ws, hperm with
    | [], hperm => simp [mergeTotal, natExtractMin]
    | [w0], hperm =>
      rw [mergeTotal_singleton]
      exact Nat.zero_le _
    | w0 :: w1 :: ws₂, hperm =>
    have hlen2 : 2 ≤ (leafDatas T).length := by
      rw [← hperm.length_eq]
      simp
    obtain ⟨d, l, r, rfl⟩ : ∃ d l r, T = Node.node d l r := by
      cases T with
      | leaf d c => simp [leafDatas, Node.leavesList] at hlen2
      | node d l r => exact ⟨d, l, r, rfl⟩
    obtain ⟨x, W', hx1, hx2, hx3⟩ :=
      natExtractMin_spec (w0 :: w1 :: ws₂) (List.cons_ne_nil _ _)
    have hW'ne : W' ≠ [] := by
      intro h
      rw [h] at hx2
      have := hx2.length_eq
      simp at this
    obtain ⟨y, W'', hy1, hy2, hy3⟩ := natExtractMin_spec W' hW'ne
    have hmt : mergeTotal (fuel + 1) (w0 :: w1 :: ws₂)
        = (x + y) + mergeTotal fuel ((x + y) :: W'') :=
      mergeTotal_min_step fuel _ W' W'' x y hx2 hx3 hy2 hy3
    obtain ⟨P, dd, wa, ca, wb, cb, hP, hPd⟩ :=
      exists_deepest_pair (Node.node d l r) d l r rfl
    have hslotA : subtreeAt (Node.node d l r) (P ++ [false])
        = some (Node.leaf wa ca) := by
      rw [subtreeAt_append, hP, Option.some_bind]
      simp [subtreeAt]
    have hslotB : subtreeAt (Node.node d l r) (P ++ [true])
        = some (Node.leaf wb cb) := by
      rw [subtreeAt_append, hP, Option.some_bind]
      simp [subtreeAt]
    have hx_ws : x ∈ w0 :: w1 :: ws₂ := hx2.symm.subset (List.mem_cons_self x W')
    have hx_leaf : x ∈ (wpathsOf (Node.node d l r) []).map (fun z => z.1) := by
      rw [wpaths_map_fst]
      exact hperm.subset hx_ws
    obtain ⟨⟨x', px⟩, hzmem, hz1⟩ := List.mem_map.mp hx_leaf
    simp only at hz1
    have hz1s : x = x' := hz1.symm
    subst hz1s
    have hpxlen : px.length ≤ (P ++ [false]).length := by
      have h := depth_le_maxDepth (Node.node d l r) [] x px hzmem
      rw [List.length_nil] at h
      rw [List.length_append, List.length_singleton]
      omega
    have hwaw : (wa, P ++ [false]) ∈ wpathsOf (Node.node d l r) [] :=
      (wpaths_mem_iff _ [] _ wa).mpr ⟨P ++ [false], by simp, ca, hslotA⟩
    have hwa_ws : wa ∈ w0 :: w1 :: ws₂ := by
      refine hperm.symm.subset ?_
      rw [← wpaths_map_fst (Node.node d l r) []]
      exact List.mem_map_of_mem _ hwaw
    obtain ⟨T₁, M, c₁, h1a, h1b, h1c, h1d, h1e, h1f⟩ :=
      moveMinToSlot (Node.node d l r) (P ++ [false]) wa ca x px hslotA hzmem
        (hx3 wa hwa_ws) hpxlen
    have hwbw : (wb, P ++ [true]) ∈ wpathsOf (Node.node d l r) [] :=
      (wpaths_mem_iff _ [] _ wb).mpr ⟨P ++ [true], by simp, cb, hslotB⟩
    have hB_snd : (P ++ [true]) ∈ (wpathsOf T₁ []).map (fun z => z.2) := by
      refine h1c.symm.subset ?_
      exact List.mem_map_of_mem _ hwbw
    obtain ⟨⟨w₁, sb⟩, hw₁mem, hsb⟩ := List.mem_map.mp hB_snd
    simp only at hsb
    subst hsb
    obtain ⟨q₁, hq₁, c₁', hT₁slotB⟩ := (wpaths_mem_iff T₁ [] _ w₁).mp hw₁mem
    rw [List.nil_append] at hq₁
    rw [← hq₁] at hT₁slotB
    have hABne : ¬ ((P ++ [true] : List Bool) = P ++ [false]) := by simp
    have hw₁M : (w₁, P ++ [true]) ∈ M := by
      have := h1a.subset hw₁mem
      rcases List.mem_cons.mp this with h | h
      · exact absurd (congrArg Prod.snd h) (by simpa using hABne)
      · exact h
    have hMW' : (M.map (fun z => z.1)).Perm W' := by
      have h1b' := h1b
      rw [wpaths_map_fst] at h1b'
      exact ((h1b'.trans hperm.symm).trans hx2).cons_inv
    have hyw₁ : y ≤ w₁ :=
      hy3 w₁ (hMW'.subset (List.mem_map_of_mem _ hw₁M))
    have hy_M : y ∈ M.map (fun z => z.1) :=
      hMW'.symm.subset (hy2.symm.subset (List.mem_cons_self y W''))
    obtain ⟨⟨y', py⟩, hpyM, hy'⟩ := List.mem_map.mp hy_M
    simp only at hy'
    have hy's : y = y' := hy'.symm
    subst hy's
    have hpymem : (y, py) ∈ wpathsOf T₁ [] :=
      h1a.symm.subset (List.mem_cons_of_mem _ hpyM)
    have hpylen : py.length ≤ (P ++ [true]).length := by
      have hmem : py ∈ (wpathsOf (Node.node d l r) []).map (fun z => z.2) :=
        h1c.subset (List.mem_map_of_mem _ hpymem)
      obtain ⟨⟨v₃, py₃⟩, hz₃, hsnd₃⟩ := List.mem_map.mp hmem
      simp only at hsnd₃
      have hsnd₃s : py = py₃ := hsnd₃.symm
      subst hsnd₃s
      have h := depth_le_maxDepth (Node.node d l r) [] v₃ py hz₃
      rw [List.length_nil] at h
      rw [List.length_append, List.length_singleton]
      omega
    obtain ⟨T₂, M₂, c₂, h2a, h2b, h2c, h2d, h2e, h2f⟩ :=
      moveMinToSlot T₁ (P ++ [true]) w₁ c₁' y py hT₁slotB hpymem hyw₁ hpylen
    have hpyA : py ≠ P ++ [false] := by
      intro h
      have hnodup : ((wpathsOf T₁ []).map (fun z => z.2)).Nodup :=
        wpaths_nodup_paths T₁ []
      have hnodup' : ((P ++ [false]) :: M.map (fun z => z.2)).Nodup := by
        refine (h1a.map (fun z => z.2)).nodup_iff.mp ?_
        simpa using hnodup
      have : py ∈ M.map (fun z => z.2) := List.mem_map_of_mem _ hpyM
      rw [h] at this
      exact (List.nodup_cons.mp hnodup').1 this
    have hT₂A : subtreeAt T₂ (P ++ [false]) = some (Node.leaf x c₁) :=
      h2e (P ++ [false]) x c₁ h1f (by simpa using hABne.symm ∘ Eq.symm) (Ne.symm hpyA)
    have hT₂B : subtreeAt T₂ (P ++ [true]) = some (Node.leaf y c₂) := h2f
    rw [subtreeAt_append] at hT₂A hT₂B
    cases hZ : subtreeAt T₂ P with
    | none => rw [hZ] at hT₂A; cases hT₂A
    | some Z =>
      rw [hZ, Option.some_bind] at hT₂A hT₂B
      cases Z with
      | leaf dz cz => simp [subtreeAt] at hT₂A
      | node dz zl zr =>
        simp only [subtreeAt, Bool.false_eq_true, if_false, if_true,
          Option.some.injEq] at hT₂A hT₂B
        subst hT₂A
        subst hT₂B
        obtain ⟨rest, hC1, hC2⟩ := wpaths_replace P T₂ _ hZ []
        rw [List.nil_append] at hC1
        rw [wpathsOf, wpathsOf, wpathsOf] at hC1
        rw [List.singleton_append, List.cons_append, List.singleton_append] at hC1
        have hC2' := hC2 (Node.leaf (x + y) c₁)
        rw [List.nil_append, wpathsOf, List.singleton_append] at hC2'
        have c1 : ((wpathsOf T₂ []).map (fun z => z.1)).Perm
            (x :: y :: rest.map (fun z => z.1)) := by
          have := hC1.map (fun z : Nat × List Bool => z.1)
          simpa using this
        have c2 : ((wpathsOf T₂ []).map (fun z => z.1)).Perm
            (y :: M₂.map (fun z => z.1)) := by
          have := h2a.map (fun z : Nat × List Bool => z.1)
          simpa using this
        have c3 : (y :: M₂.map (fun z => z.1)).Perm
            ((wpathsOf T₁ []).map (fun z => z.1)) := h2b
        have c4 : ((wpathsOf T₁ []).map (fun z => z.1)).Perm
            (x :: M.map (fun z => z.1)) := by
          have := h1a.map (fun z : Nat × List Bool => z.1)
          simpa using this
        have hrest : (rest.map (fun z => z.1)).Perm W'' := by
          have hchain : (x :: y :: rest.map (fun z => z.1)).Perm
              (x :: y :: W'') := by
            refine (c1.symm.trans (c2.trans (c3.trans (c4.trans ?_))))
            exact ((hMW'.trans hy2).cons x)
          exact hchain.cons_inv.cons_inv
        have hT₃leaf : ((x + y) :: W'').Perm
            (leafDatas (replaceAt T₂ P (Node.leaf (x + y) c₁))) := by
          rw [← wpaths_map_fst _ []]
          refine List.Perm.symm ?_
          have := hC2'.map (fun z : Nat × List Bool => z.1)
          simp only [List.map_cons] at this
          exact this.trans (hrest.cons (x + y))
        have hIH := ih (replaceAt T₂ P (Node.leaf (x + y) c₁)) ((x + y) :: W'') hT₃leaf
        have k1 : ((wpathsOf T₂ []).map (fun z => z.1 * z.2.length)).sum
            = x * (P.length + 1) + (y * (P.length + 1)
              + (rest.map (fun z => z.1 * z.2.length)).sum) := by
          have := (hC1.map (fun z : Nat × List Bool => z.1 * z.2.length)).sum_eq
          simpa [List.length_append] using this
        have k2 : ((wpathsOf (replaceAt T₂ P (Node.leaf (x + y) c₁)) []).map
              (fun z => z.1 * z.2.length)).sum
            = (x + y) * P.length + (rest.map (fun z => z.1 * z.2.length)).sum := by
          have := (hC2'.map (fun z : Nat × List Bool => z.1 * z.2.length)).sum_eq
          simpa using this
        have k3 : ((wpathsOf (Node.node d l r) []).map
              (fun z => z.1 * z.2.length)).sum = treeCost (Node.node d l r) := by
          have := wpaths_cost (Node.node d l r) []
          simpa using this
        have k4 : ((wpathsOf T₂ []).map (fun z => z.1 * z.2.length)).sum
            = treeCost T₂ := by
          have := wpaths_cost T₂ []
          simpa using this
        have k5 : ((wpathsOf (replaceAt T₂ P (Node.leaf (x + y) c₁)) []).map
              (fun z => z.1 * z.2.length)).sum
            = treeCost (replaceAt T₂ P (Node.leaf (x + y) c₁)) := by
          have := wpaths_cost (replaceAt T₂ P (Node.leaf (x + y) c₁)) []
          simpa using this
        have hring : (x + y) * P.length + (x + y)
            = x * (P.length + 1) + y * (P.length + 1) := by ring
        rw [hmt]
        linarith [h1d, h2d, hIH]

theorem branchCodes_cons_same (b : Bool) (w : Nat) (t : List Bool)
    (L : List (Nat × List Bool)) :
    branchCodes b ((w, b :: t) :: L) = (w, t) :: branchCodes b L := by
  simp [branchCodes, List.filterMap_cons]

theorem branchCodes_cons_diff (b b' : Bool) (hb : b' ≠ b) (w : Nat) (t : List Bool)
    (L : List (Nat × List Bool)) :
    branchCodes b ((w, b' :: t) :: L) = branchCodes b L := by
  simp [branchCodes, List.filterMap_cons, hb]

theorem branch_split_perm : ∀ L : List (Nat × List Bool), (∀ z ∈ L, z.2 ≠ []) →
    (L.map (fun z => z.1)).Perm
      ((branchCodes false L).map (fun z => z.1)
        ++ (branchCodes true L).map (fun z => z.1)) := by
  intro L
  induction L with
  | nil => intro _; simp [branchCodes]
  | cons z L ih =>
    intro hne
    obtain ⟨w, code⟩ := z
    have hcode : code ≠ [] := hne (w, code) (List.mem_cons_self _ _)
    have ih' := ih (fun z hz => hne z (List.mem_cons_of_mem _ hz))
    cases code with
    | nil => exact absurd rfl hcode
    | cons b t =>
      cases b
      · rw [branchCodes_cons_same false w t L,
          branchCodes_cons_diff true false (by simp) w t L]
        simp only [List.map_cons, List.cons_append]
        exact ih'.cons w
      · rw [branchCodes_cons_same true w t L,
          branchCodes_cons_diff false true (by simp) w t L]
        simp only [List.map_cons]
        exact (ih'.cons w).trans List.perm_middle.symm

theorem branch_split_cost : ∀ L : List (Nat × List Bool), (∀ z ∈ L, z.2 ≠ []) →
    (L.map (fun z => z.1 * z.2.length)).sum
      = ((branchCodes false L).map (fun z => z.1 * z.2.length)).sum
        + ((branchCodes true L).map (fun z => z.1 * z.2.length)).sum
        + (L.map (fun z => z.1)).sum := by
  intro L
  induction L with
  | nil => simp [branchCodes]
  | cons z L ih =>
    intro hne
    obtain ⟨w, code⟩ := z
    have hcode : code ≠ [] := hne (w, code) (List.mem_cons_self _ _)
    have ih' := ih (fun z hz => hne z (List.mem_cons_of_mem _ hz))
    cases code with
    | nil => exact absurd rfl hcode
    | cons b t =>
      have hw : w * (t.length + 1) = w * t.length + w := by ring
      cases b
      · rw [branchCodes_cons_same false w t L,
          branchCodes_cons_diff true false (by simp) w t L]
        simp only [List.map_cons, List.sum_cons, List.length_cons]
        omega
      · rw [branchCodes_cons_same true w t L,
          branchCodes_cons_diff false true (by simp) w t L]
        simp only [List.map_cons, List.sum_cons, List.length_cons]
        omega

theorem branch_split_len : ∀ L : List (Nat × List Bool), (∀ z ∈ L, z.2 ≠ []) →
    (L.map (fun z => z.2.length)).sum
      = ((branchCodes false L).map (fun z => z.2.length)).sum
        + ((branchCodes true L).map (fun z => z.2.length)).sum
        + L.length := by
  intro L
  induction L with
  | nil => simp [branchCodes]
  | cons z L ih =>
    intro hne
    obtain ⟨w, code⟩ := z
    have hcode : code ≠ [] := hne (w, code) (List.mem_cons_self _ _)
    have ih' := ih (fun z hz => hne z (List.mem_cons_of_mem _ hz))
    cases code with
    | nil => exact absurd rfl hcode
    | cons b t =>
      cases b
      · rw [branchCodes_cons_same false w t L,
          branchCodes_cons_diff true false (by simp) w t L]
        simp only [List.map_cons, List.sum_cons, List.length_cons]
        omega
      · rw [branchCodes_cons_same true w t L,
          branchCodes_cons_diff false true (by simp) w t L]
        simp only [List.map_cons, List.sum_cons, List.length_cons]
        omega

theorem branch_pairwise (b : Bool) :
    ∀ L : List (Nat × List Bool),
    L.Pairwise (fun p q => ¬ p.2 <+: q.2 ∧ ¬ q.2 <+: p.2) →
    (branchCodes b L).Pairwise (fun p q => ¬ p.2 <+: q.2 ∧ ¬ q.2 <+: p.2) := by
  intro L
  induction L with
  | nil => intro _; simp [branchCodes]
  | cons z L ih =>
    intro hpw
    obtain ⟨hz, hL⟩ := List.pairwise_cons.mp hpw
    obtain ⟨w, code⟩ := z
    cases code with
    | nil => simpa [branchCodes, List.filterMap_cons] using ih hL
    | cons b' t =>
      by_cases hb : b' = b
      · subst hb
        rw [branchCodes_cons_same b' w t L, List.pairwise_cons]
        constructor
        · intro y hy
          obtain ⟨z', hz'mem, hz'⟩ := List.mem_filterMap.mp hy
          obtain ⟨w', code'⟩ := z'
          cases code' with
          | nil => simp at hz'
          | cons b'' t' =>
            simp only at hz'
            by_cases hb'' : b'' = b'
            · subst hb''
              rw [if_pos rfl, Option.some_inj] at hz'
              rw [← hz']
              have hrel := hz (w', b'' :: t') hz'mem
              simp only at hrel ⊢
              constructor
              · intro h; exact hrel.1 (List.cons_prefix_cons.mpr ⟨rfl, h⟩)
              · intro h; exact hrel.2 (List.cons_prefix_cons.mpr ⟨rfl, h⟩)
            · rw [if_neg hb''] at hz'
              cases hz'
        · exact ih hL
      · rw [branchCodes_cons_diff b b' hb w t L]
        exact ih hL

theorem codes_nonempty (L : List (Nat × List Bool)) (h2 : 2 ≤ L.length)
    (hpw : L.Pairwise (fun p q => ¬ p.2 <+: q.2 ∧ ¬ q.2 <+: p.2)) :
    ∀ z ∈ L, z.2 ≠ [] := by
  match L, h2 with
  | z₀ :: z₁ :: L', _ =>
    obtain ⟨h₀, hrest⟩ := List.pairwise_cons.mp hpw
    intro z hz hznil
    rcases List.mem_cons.mp hz with h | h
    · subst h
      have := (h₀ z₁ (List.mem_cons_self _ _)).1
      rw [hznil] at this
      exact this List.nil_prefix
    · have := (h₀ z h).2
      rw [hznil] at this
      exact this List.nil_prefix

theorem tree_of_wcodes : ∀ (N : Nat) (L : List (Nat × List Bool)),
    (L.map (fun z => z.2.length)).sum ≤ N → L ≠ [] →
    L.Pairwise (fun p q => ¬ p.2 <+: q.2 ∧ ¬ q.2 <+: p.2) →
    ∃ T : Node, (leafDatas T).Perm (L.map (fun z => z.1)) ∧
      treeCost T ≤ (L.map (fun z => z.1 * z.2.length)).sum := by
  intro N
  induction N with
  | zero =>
    intro L hsum hne hpw
    match L, hne with
    | [z], _ =>
      exact ⟨Node.leaf z.1 'a', by simp [leafDatas, Node.leavesList, Node.data],
        by simp [treeCost]⟩
    | z₀ :: z₁ :: L', _ =>
      exfalso
      have hz₀ := codes_nonempty _ (by simp) hpw z₀ (List.mem_cons_self _ _)
      have : 1 ≤ z₀.2.length := List.length_pos.mpr hz₀
      simp only [List.map_cons, List.sum_cons] at hsum
      omega
  | succ fuel ih =>
    intro L hsum hne hpw
    match L, hne with
    | [z], _ =>
      exact ⟨Node.leaf z.1 'a', by simp [leafDatas, Node.leavesList, Node.data],
        by simp [treeCost]⟩
    | z₀ :: z₁ :: L', _ =>
    have hlen2 : 2 ≤ (z₀ :: z₁ :: L').length := by simp
    have hcn := codes_nonempty _ hlen2 hpw
    have hsp := branch_split_perm _ hcn
    have hsc := branch_split_cost _ hcn
    have hsl := branch_split_len _ hcn
    have hp0 := branch_pairwise false _ hpw
    have hp1 := branch_pairwise true _ hpw
    have hLlen : (z₀ :: z₁ :: L').length = L'.length + 2 := by
      simp only [List.length_cons]
    by_cases hA0 : branchCodes false (z₀ :: z₁ :: L') = []
    · have hcount : (branchCodes true (z₀ :: z₁ :: L')).length
          = (z₀ :: z₁ :: L').length := by
        have := hsp.length_eq
        rw [hA0] at this
        simpa using this.symm
      have hA1ne : branchCodes true (z₀ :: z₁ :: L') ≠ [] := by
        intro h
        rw [h] at hcount
        rw [hLlen] at hcount
        simp at hcount
      rw [hA0] at hsp hsc hsl
      simp only [List.map_nil, List.sum_nil, List.nil_append, Nat.zero_add] at hsp hsc hsl
      obtain ⟨T, hT1, hT2⟩ := ih (branchCodes true (z₀ :: z₁ :: L'))
        (by rw [hLlen] at hsl; omega) hA1ne hp1
      exact ⟨T, hT1.trans hsp.symm, by omega⟩
    · by_cases hA1 : branchCodes true (z₀ :: z₁ :: L') = []
      · rw [hA1] at hsp hsc hsl
        simp only [List.map_nil, List.sum_nil, List.append_nil, Nat.add_zero,
          Nat.zero_add] at hsp hsc hsl
        obtain ⟨T, hT1, hT2⟩ := ih (branchCodes false (z₀ :: z₁ :: L'))
          (by rw [hLlen] at hsl; omega) hA0 hp0
        exact ⟨T, hT1.trans hsp.symm, by omega⟩
      · obtain ⟨T0, hT01, hT02⟩ := ih (branchCodes false (z₀ :: z₁ :: L'))
          (by rw [hLlen] at hsl; omega) hA0 hp0
        obtain ⟨T1, hT11, hT12⟩ := ih (branchCodes true (z₀ :: z₁ :: L'))
          (by rw [hLlen] at hsl; omega) hA1 hp1
        refine ⟨Node.node 0 T0 T1, ?_, ?_⟩
        · have hld : leafDatas (Node.node 0 T0 T1)
              = leafDatas T0 ++ leafDatas T1 := by
            simp [leafDatas, Node.leavesList]
          rw [hld]
          exact (hT01.append hT11).trans hsp.symm
        · rw [treeCost]
          have hw0 : weightSum T0
              = ((branchCodes false (z₀ :: z₁ :: L')).map (fun z => z.1)).sum := by
            rw [weightSum_eq]
            exact hT01.sum_eq
          have hw1 : weightSum T1
              = ((branchCodes true (z₀ :: z₁ :: L')).map (fun z => z.1)).sum := by
            rw [weightSum_eq]
            exact hT11.sum_eq
          have hfstsum : ((z₀ :: z₁ :: L').map (fun z => z.1)).sum
              = ((branchCodes false (z₀ :: z₁ :: L')).map (fun z => z.1)).sum
                + ((branchCodes true (z₀ :: z₁ :: L')).map (fun z => z.1)).sum := by
            have h := hsp.sum_eq
            rw [List.sum_append] at h
            exact h
          omega

theorem tableCost_pathsOf (wmap : List (Char × Nat)) :
    ∀ (t : Node) (curr : List Bool),
      (∀ nd ∈ t.leavesList, dictFind? wmap nd.char = some nd.data) →
      tableCost wmap (pathsOf t curr)
        = ((wpathsOf t curr).map (fun z => z.1 * z.2.length)).sum := by
  intro t
  induction t with
  | leaf d c =>
    intro curr hfind
    have h := hfind (Node.leaf d c) (by simp [Node.leavesList])
    rw [Node.char, Node.data] at h
    simp [tableCost, pathsOf, wpathsOf, h]
  | node d l r ihl ihr =>
    intro curr hfind
    have hfl : ∀ nd ∈ l.leavesList, dictFind? wmap nd.char = some nd.data := by
      intro nd hnd
      exact hfind nd (by rw [Node.leavesList]; exact List.mem_append_left _ hnd)
    have hfr : ∀ nd ∈ r.leavesList, dictFind? wmap nd.char = some nd.data := by
      intro nd hnd
      exact hfind nd (by rw [Node.leavesList]; exact List.mem_append_right _ hnd)
    rw [pathsOf, wpathsOf, tableCost, List.map_append, List.sum_append,
      List.map_append, List.sum_append]
    rw [← tableCost, ← tableCost, ihl _ hfl, ihr _ hfr]

theorem huffmanCodes_cost (s : List Char) (freq : List Nat)
    (hlen : s.length ≤ freq.length) (h2 : 2 ≤ s.length) :
    ∃ (table : List (Char × List Bool)) (root : Node),
      huffmanCodes s freq = some (table, root) ∧
      table = preOrder root [] [] ∧
      root.leavesList.Perm ((s.zip freq).map (fun p => Node.leaf p.2 p.1)) ∧
      treeCost root
        = mergeTotal (s.zip freq).length ((s.zip freq).map (fun p => p.2)) := by
  set ps := s.zip freq with hps
  have hpslen : ps.length = s.length := by
    rw [hps, List.length_zip]; omega
  set pq := ps.foldl (fun pq p => heappush pq (.leaf p.2 p.1)) [] with hpq
  have hpqperm : pq.Perm (ps.map (fun p => Node.leaf p.2 p.1)) := by
    simpa using fold_push_perm ps []
  have hpqlen : pq.length = ps.length := by
    simpa using hpqperm.length_eq
  have hpqlen2 : 2 ≤ pq.length := by omega
  have hnot1 : ¬ pq.length = 1 := by omega
  have hleafmem : ∀ t ∈ pq, ∃ p : Char × Nat, t = Node.leaf p.2 p.1 := by
    intro t ht
    have := hpqperm.subset ht
    obtain ⟨p, _, hp⟩ := List.mem_map.mp this
    exact ⟨p, hp.symm⟩
  have hheap : IsHeap pq := fold_push_isHeap ps [] isHeap_nil
  have hdata : ∀ t ∈ pq, Node.data t = weightSum t := by
    intro t ht
    obtain ⟨p, hp⟩ := hleafmem t ht
    rw [hp, Node.data, weightSum]
  obtain ⟨root', hroot', hcost⟩ :=
    buildLoop_cost pq.length pq hheap hdata (by omega) (by omega)
  obtain ⟨d, l, r, hroot⟩ := buildLoop_internal pq.length pq hpqlen2 (by omega)
  have hroots : root' = Node.node d l r := by
    rw [hroot'] at hroot
    exact (List.cons.injEq _ _ _ _).mp hroot |>.1
  have hpop : heappop (buildLoop pq.length pq) = some (root', []) := by
    rw [hroot']
    simp [heappop]
  refine ⟨preOrder root' [] [], root', ?_, rfl, ?_, ?_⟩
  · rw [huffmanCodes]
    simp only [← hps, ← hpq, if_neg hnot1, hpop]
  · have h1 : forestLeaves (buildLoop pq.length pq) = root'.leavesList := by
      rw [hroot']; simp [forestLeaves]
    obtain ⟨_, hloopperm⟩ := buildLoop_spec pq.length pq (by omega) (by omega)
    rw [h1] at hloopperm
    refine hloopperm.trans ?_
    refine (forestLeaves_perm hpqperm).trans ?_
    rw [forestLeaves_of_leaves]
  · rw [hcost]
    have hzero : (pq.map treeCost).sum = 0 := by
      apply List.sum_eq_zero
      intro x hx
      obtain ⟨t, ht, hxeq⟩ := List.mem_map.mp hx
      obtain ⟨p, hp⟩ := hleafmem t ht
      rw [← hxeq, hp, treeCost]
    have hdperm : (pq.map Node.data).Perm (ps.map (fun p => p.2)) := by
      refine (hpqperm.map Node.data).trans ?_
      rw [List.map_map]
      exact List.Perm.refl _
    rw [hzero, mergeTotal_perm pq.length _ _ hdperm, hpqlen, Nat.zero_add]

theorem zip_lookup_map (s : List Char) (freq : List Nat)
    (hnd : s.Nodup) (hlen : s.length = freq.length) :
    s.map (fun c => (dictFind? (s.zip freq) c).getD 0) = freq := by
  have hkeys : (s.zip freq).map (fun p => p.1) = s :=
    List.map_fst_zip s freq (by omega)
  apply List.ext_getElem (by simp [hlen])
  intro i h1 h2
  have hs : i < s.length := by simpa using h1
  have hf : i < freq.length := h2
  rw [List.getElem_map]
  have hz : i < (s.zip freq).length := by
    rw [List.length_zip]
    omega
  have hmem : (s.get ⟨i, hs⟩, freq.get ⟨i, hf⟩) ∈ s.zip freq := by
    have hget : (s.zip freq).get ⟨i, hz⟩ = (s.get ⟨i, hs⟩, freq.get ⟨i, hf⟩) := by
      simp [List.get_zip]
    rw [← hget]
    exact List.get_mem _ _ _
  have hfind := dictFind?_eq_some_of_mem (s.zip freq) _ _ hmem (by rw [hkeys]; exact hnd)
  simp only [List.get_eq_getElem] at hfind
  rw [hfind]
  rfl

theorem zip_map_snd_eq : ∀ (s : List Char) (freq : List Nat),
    freq.length ≤ s.length → (s.zip freq).map (fun p => p.2) = freq := by
  intro s
  induction s with
  | nil =>
    intro freq h
    simp at h
    rw [h]
    rfl
  | cons c s' ih =>
    intro freq h
    cases freq with
    | nil => rfl
    | cons f fr =>
      rw [List.zip_cons_cons, List.map_cons, ih fr (by simpa using h)]

/-- C3: Optimality — for every frequency table over at least two distinct
symbols with all frequencies positive, the code table produced by
`huffmanCodes` minimizes the total encoded length
`Σ freq(symbol) · codeLength(symbol)` over all prefix-free binary code
assignments for that alphabet. -/
theorem c3_optimality (s : List Char) (freq : List Nat)
    (hnd : s.Nodup) (h2 : 2 ≤ s.length) (hlen : s.length = freq.length)
    (hpos : ∀ f ∈ freq, 0 < f)
    (table : List (Char × List Bool)) (root : Node)
    (hhc : huffmanCodes s freq = some (table, root))
    (assign : List (Char × List Bool)) (hpf : PrefixFreeOn s assign) :
    tableCost (s.zip freq) table ≤ tableCost (s.zip freq) assign := by
  obtain ⟨table', root', hhc', htab, hleaves, hcost⟩ :=
    huffmanCodes_cost s freq (le_of_eq hlen) h2
  rw [hhc, Option.some_inj, Prod.mk.injEq] at hhc'
  obtain ⟨htabeq, hrooteq⟩ := hhc'
  subst htabeq
  subst hrooteq
  have hmapfst : (s.zip freq).map (fun p => p.1) = s :=
    List.map_fst_zip s freq (by omega)
  have hmapsnd : (s.zip freq).map (fun p => p.2) = freq :=
    zip_map_snd_eq s freq (by omega)
  have hchars : (root.leavesList.map Node.char).Perm s := by
    refine (hleaves.map Node.char).trans ?_
    rw [List.map_map]
    have hcomp : (Node.char ∘ fun p : Char × Nat => Node.leaf p.2 p.1)
        = fun p : Char × Nat => p.1 := funext fun p => rfl
    rw [hcomp, hmapfst]
  have hcharnodup : (root.leavesList.map Node.char).Nodup :=
    hchars.nodup_iff.mpr hnd
  have htable : table = pathsOf root [] := by
    rw [htab, preOrder_eq root [] [] hcharnodup (by simp), List.nil_append]
  have hdict : ∀ nd ∈ root.leavesList,
      dictFind? (s.zip freq) nd.char = some nd.data := by
    intro nd hndmem
    obtain ⟨p, hpmem, hpeq⟩ := List.mem_map.mp (hleaves.subset hndmem)
    subst hpeq
    simp only [Node.char, Node.data]
    exact dictFind?_eq_some_of_mem _ p.1 p.2 (by simpa using hpmem)
      (by rw [hmapfst]; exact hnd)
  have hhuff : tableCost (s.zip freq) table = treeCost root := by
    rw [htable, tableCost_pathsOf _ root [] hdict]
    have := wpaths_cost root []
    simpa using this
  set L := assign.map (fun p => ((dictFind? (s.zip freq) p.1).getD 0, p.2))
    with hL
  have hassignlen : assign.length = s.length := by
    have := hpf.1.length_eq
    simpa using this
  have hLlen : L.length = s.length := by
    rw [hL, List.length_map, hassignlen]
  have hLne : L ≠ [] := by
    intro h
    rw [h] at hLlen
    simp at hLlen
    omega
  have hLpw : L.Pairwise (fun p q => ¬ p.2 <+: q.2 ∧ ¬ q.2 <+: p.2) := by
    rw [hL, List.pairwise_map]
    exact hpf.2
  obtain ⟨TA, hTA1, hTA2⟩ := tree_of_wcodes ((L.map (fun z => z.2.length)).sum)
    L (Nat.le_refl _) hLne hLpw
  have hLfst : (L.map (fun z => z.1)).Perm freq := by
    rw [hL, List.map_map]
    have hcomp : ((fun z : Nat × List Bool => z.1)
          ∘ fun p : Char × List Bool => ((dictFind? (s.zip freq) p.1).getD 0, p.2))
        = (fun c => (dictFind? (s.zip freq) c).getD 0)
          ∘ (fun p : Char × List Bool => p.1) := rfl
    rw [hcomp, ← List.map_map]
    refine ((hpf.1).map (fun c => (dictFind? (s.zip freq) c).getD 0)).trans ?_
    rw [zip_lookup_map s freq hnd hlen]
  have hwsperm : ((s.zip freq).map (fun p => p.2)).Perm (leafDatas TA) := by
    rw [hmapsnd]
    exact hLfst.symm.trans hTA1.symm
  have hlower := mergeTotal_le_treeCost (s.zip freq).length TA _ hwsperm
  have hcompcost : tableCost (s.zip freq) assign
      = (L.map (fun z => z.1 * z.2.length)).sum := by
    rw [hL, List.map_map]
    rfl
  rw [hhuff, hcost, hcompcost]
  exact le_trans hlower hTA2

theorem c3_optimality_witness :
    tableCost (['a','b','c'].zip [1,1,4])
        [('a', [false, false]), ('b', [false, true]), ('c', [true])]
      ≤ tableCost (['a','b','c'].zip [1,1,4])
        [('a', [false]), ('b', [true, false]), ('c', [true, true])] :=
  c3_optimality ['a','b','c'] [1,1,4] (by decide) (by decide) (by decide)
    (by decide)
    [('a', [false, false]), ('b', [false, true]), ('c', [true])]
    (Node.node 6 (Node.node 2 (Node.leaf 1 'a') (Node.leaf 1 'b'))
      (Node.leaf 4 'c'))
    (by rfl)
    [('a', [false]), ('b', [true, false]), ('c', [true, true])]
    ⟨by decide, by decide⟩
